import Mathlib

/-
  Verification development for the RmlUi Element core
  (Include/RmlUi/Core/Element.h and its implementation).

  The repository ships the public header `Element.h` with full doc
  comments; the implementation translation below is a shallow embedding
  of the behaviour documented there and in the accompanying
  specification.  Machine floats (Vector2f, property values, z-index)
  are embedded as rationals; pointer-based tree ownership is embedded
  as an id-indexed store with explicit parent back-references.
-/

namespace RmlSpec

/-! ## Base types -/

/-- Element identifiers: handles into the element store (the shallow
embedding of `Element*` pointers). -/
abbrev ElemId := Nat

/-- Property identifiers, the embedding of `PropertyId`. -/
abbrev PropertyId := Nat

/-- Units a property value can carry.  Modelled from the spec:
`ResolveLengthPercentage` distinguishes length values (already in px)
from percentage values that scale against a base value. -/
inductive PropertyUnit where
  | px
  | percent
deriving DecidableEq, Repr

/-- The embedding of `Rml::Core::Property`: a numeric value with a
unit.  Machine floats are embedded as rationals. -/
structure Property where
  value : ℚ
  unit : PropertyUnit
deriving DecidableEq, Repr

/-- The embedding of `Rml::Core::Tween`: an opaque easing identifier;
interpolation itself is out of scope for the claims treated here. -/
structure Tween where
  id : Nat := 0
deriving DecidableEq, Repr

/-- Two-dimensional vector over rationals, the embedding of
`Rml::Core::Vector2f`. -/
structure Vec2 where
  x : ℚ
  y : ℚ
deriving DecidableEq, Repr

/-- Componentwise addition of offsets. -/
def Vec2.add (a b : Vec2) : Vec2 := ⟨a.x + b.x, a.y + b.y⟩

/-- The embedding of `Rml::Core::Box`: only the content size and an
edge offset are retained; the claims treated here never inspect the
individual margin/border/padding edges. -/
structure Box where
  offset : Vec2 := ⟨0, 0⟩
  size : Vec2 := ⟨0, 0⟩
deriving DecidableEq, Repr

/-! ## Animation entries -/

/-- One key of an animation: a target value reached at an absolute
time within the animation, eased by a tween.  Modelled from the spec:
an animation holds "one or more interpolation keys (target value,
duration, easing/tween)". -/
structure AnimationKey where
  time : ℚ
  target : Property
  tween : Tween
deriving DecidableEq, Repr

/-- Who created an animation entry.  Modelled from the spec: each
per-property entry "is either an animation (explicit) or a transition
(implicit)"; transitions never replace animations. -/
inductive AnimationOrigin where
  | animation
  | transition
deriving DecidableEq, Repr

/-- The embedding of `ElementAnimation`: one active entry of the
element's animation list, keyed by a property id. -/
structure ElementAnimation where
  property_id : PropertyId
  origin : AnimationOrigin
  start_value : Property
  keys : List AnimationKey
  num_iterations : Int
  alternate_direction : Bool
  delay : ℚ
deriving DecidableEq, Repr

/-- Total duration of an animation entry: the time of its last key
(zero when it has no keys yet). -/
def ElementAnimation.duration (a : ElementAnimation) : ℚ :=
  match a.keys.getLast? with
  | some k => k.time
  | none => 0

/-! ## The element state -/

/-- The embedding of the private state of `Rml::Core::Element`
(Element.h, lines 656-747), restricted to the fields the claims under
consideration touch.  Children are held as an ordered list of ids with
the trailing `num_non_dom_children` entries being the non-DOM block,
exactly as the header's `children` / `num_non_dom_children` pair. -/
structure Element where
  tag : String := ""
  parent : Option ElemId := none
  /-- Whether this element participates in the DOM of its parent
  (set when it is attached; meaningless while detached). -/
  dom : Bool := true
  children : List ElemId := []
  num_non_dom_children : Nat := 0
  local_props : List (PropertyId × Property) := []
  z_index : ℚ := 0
  main_box : Box := {}
  additional_boxes : List Box := []
  /-- The box most recently produced by layout, the source the cached
  `main_box` is refreshed from when `box_dirty` is set. -/
  layout_box : Box := {}
  box_dirty : Bool := false
  /-- Count of box recomputations performed (proof instrumentation
  for the at-most-once recomputation property). -/
  box_recompute_count : Nat := 0
  relative_offset : Vec2 := ⟨0, 0⟩
  /-- Absolute offset of this element's offset parent, the external
  input the cached absolute offset is recomputed from. -/
  parent_absolute_offset : Vec2 := ⟨0, 0⟩
  absolute_offset : Vec2 := ⟨0, 0⟩
  offset_dirty : Bool := false
  /-- Count of offset recomputations performed (proof
  instrumentation). -/
  offset_recompute_count : Nat := 0
  animations : List ElementAnimation := []
deriving DecidableEq, Repr

/-! ## External collaborators

The style system outside the element (name registry, property
defaults, the cascade, and the string parser) is consumed through a
narrow interface; the spec treats it as an external collaborator. -/

/-- Modelled from the spec: the external style collaborators of an
element (the property registry with defined defaults, the
cascade/inheritance resolver, and the string-value parser), which live
outside `Element.cpp`. -/
structure StyleEnv where
  /-- Resolves a property name; unknown names resolve to `none`. -/
  idOf : String → Option PropertyId
  /-- The defined default value of each known property. -/
  defaultOf : PropertyId → Property
  /-- The cascaded/inherited value, independent of local overrides. -/
  cascade : PropertyId → Option Property
  /-- Parses a string-form value for a property; `none` on parse
  failure. -/
  parse : PropertyId → String → Option Property

/-! ## Box access (Element.h lines 152-161) -/

/-- Modelled from the spec: the body of `Element::GetNumBoxes` is in
the missing `Element.cpp`; the element's geometry is the main box plus
the additional boxes. -/
def Element.GetNumBoxes (e : Element) : Nat :=
  1 + e.additional_boxes.length

/-- Modelled from the spec: the body of `Element::GetBox(int)` is in
the missing `Element.cpp`.  Per the header doc, index 0 is the main
box and an out-of-bounds index returns the main box.  The index is an
`Int`, as the C++ parameter is a signed `int`. -/
def Element.GetBoxAt (e : Element) (index : Int) : Box :=
  if index < 1 then
    e.main_box
  else
    match e.additional_boxes[(index - 1).toNat]? with
    | some b => b
    | none => e.main_box

/-! ## ResolveLengthPercentage (Element.h lines 226-230) -/

/-- Modelled from the spec: the body of
`Element::ResolveLengthPercentage` is in the missing `Element.cpp`.
It converts a length-or-percentage property to px: a px value is
returned unchanged, a percentage value is scaled by the base value.
It is a function of the property and the base value alone. -/
def ResolveLengthPercentage (p : Property) (base_value : ℚ) : ℚ :=
  match p.unit with
  | .px => p.value
  | .percent => p.value * base_value / 100

/-- Modelled from the spec: calling `ResolveLengthPercentage` through
an element, pairing the resolved value with the element state after
the call ("pure function, no side effects, must not mutate cached
state"). -/
def Element.ResolveLengthPercentageOn (e : Element) (p : Property)
    (base_value : ℚ) : ℚ × Element :=
  (ResolveLengthPercentage p base_value, e)

/-! ## The property store (Element.h lines 188-230) -/

/-- Modelled from the spec: the body of `Element::GetLocalProperty` is
in the missing `Element.cpp`; it reads the local-override mapping
only. -/
def Element.GetLocalProperty (e : Element) (id : PropertyId) : Option Property :=
  e.local_props.lookup id

/-- Modelled from the spec: resolution of a property by id, the
id-form of `Element::GetProperty` from the missing `Element.cpp`.
Resolution order is local override, then the externally cascaded or
inherited value, then the property's defined default. -/
def Element.GetPropertyById (env : StyleEnv) (e : Element) (id : PropertyId) :
    Property :=
  match e.GetLocalProperty id with
  | some p => p
  | none =>
    match env.cascade id with
    | some p => p
    | none => env.defaultOf id

/-- Modelled from the spec: the name-form of `Element::GetProperty`
from the missing `Element.cpp`.  An unknown property name yields
`none` (the NULL of the header doc); a known name always yields a
value. -/
def Element.GetProperty (env : StyleEnv) (e : Element) (name : String) :
    Option Property :=
  match env.idOf name with
  | none => none
  | some id => some (e.GetPropertyById env id)

/-- Insert or overwrite one binding of an association list, keeping
it unique by key. -/
def setAssoc (l : List (PropertyId × Property)) (id : PropertyId)
    (p : Property) : List (PropertyId × Property) :=
  match l with
  | [] => [(id, p)]
  | (k, v) :: rest =>
    if k = id then (id, p) :: rest else (k, v) :: setAssoc rest id p

/-- Remove every binding of a key from an association list. -/
def removeAssoc (l : List (PropertyId × Property)) (id : PropertyId) :
    List (PropertyId × Property) :=
  l.filter (fun kv => kv.1 ≠ id)

/-- Modelled from the spec: the id-form of `Element::SetProperty` from
the missing `Element.cpp`.  It writes the local-override mapping
(unique by identifier) and marks derived state dirty as implied by the
change. -/
def Element.SetPropertyById (e : Element) (id : PropertyId) (p : Property) :
    Element :=
  { e with
    local_props := setAssoc e.local_props id p
    box_dirty := true
    offset_dirty := true }

/-- Modelled from the spec: the string-form of `Element::SetProperty`
from the missing `Element.cpp`.  The name is resolved and the value
parsed; on failure (unknown name or parse failure) it returns false
and the element is left unchanged, otherwise the parsed value is
written as a local override and it returns true. -/
def Element.SetProperty (env : StyleEnv) (e : Element)
    (name value : String) : Bool × Element :=
  match env.idOf name with
  | none => (false, e)
  | some id =>
    match env.parse id value with
    | none => (false, e)
    | some p => (true, e.SetPropertyById id p)

/-- Modelled from the spec: the id-form of `Element::RemoveProperty`
from the missing `Element.cpp`; the local override is removed so the
value reverts to the cascaded/style-sheet value. -/
def Element.RemovePropertyById (e : Element) (id : PropertyId) : Element :=
  { e with
    local_props := removeAssoc e.local_props id
    box_dirty := true
    offset_dirty := true }

/-- Modelled from the spec: the name-form of `Element::RemoveProperty`
from the missing `Element.cpp`; an unknown name is a no-op. -/
def Element.RemoveProperty (env : StyleEnv) (e : Element) (name : String) :
    Element :=
  match env.idOf name with
  | none => e
  | some id => e.RemovePropertyById id

/-! ## The animation engine (Element.h lines 252-261, 636-645) -/

/-- The fresh, still keyless entry created when an animation is
started: its start value is the given one, or the element's current
property value when none is given. -/
def freshAnimationEntry (env : StyleEnv) (e : Element)
    (property_id : PropertyId) (start_value : Option Property)
    (num_iterations : Int) (alternate_direction : Bool) (delay : ℚ) :
    ElementAnimation :=
  { property_id := property_id
    origin := .animation
    start_value :=
      match start_value with
      | some p => p
      | none => e.GetPropertyById env property_id
    keys := []
    num_iterations := num_iterations
    alternate_direction := alternate_direction
    delay := delay }

/-- Modelled from the spec: the body of `Element::StartAnimation` is
in the missing `Element.cpp`.  It removes any existing entry of the
same property id and appends a fresh entry with no keys yet ("starting
a new animation for an already-animated property replaces it").  When
`start_value` is null the element's current value is used. -/
def Element.StartAnimation (env : StyleEnv) (e : Element)
    (property_id : PropertyId) (start_value : Option Property)
    (num_iterations : Int) (alternate_direction : Bool) (delay : ℚ) :
    Element :=
  { e with
    animations :=
      (e.animations.filter (fun a => a.property_id ≠ property_id)) ++
        [freshAnimationEntry env e property_id start_value num_iterations
          alternate_direction delay] }

/-- Appends a key to the animation entry of the given property id and
leaves every other entry alone. -/
def addKeyToAnimation (property_id : PropertyId) (k : AnimationKey)
    (a : ElementAnimation) : ElementAnimation :=
  if a.property_id = property_id then { a with keys := a.keys ++ [k] }
  else a

/-- Modelled from the spec: the body of `Element::AddAnimationKeyTime`
is in the missing `Element.cpp`.  It finds the entry for the property
id; when none exists the call is ignored and false is returned,
otherwise a key with the given absolute time is appended to that entry
and true is returned. -/
def Element.AddAnimationKeyTime (e : Element) (property_id : PropertyId)
    (target_value : Property) (time : ℚ) (tween : Tween) : Bool × Element :=
  if e.animations.any (fun a => a.property_id = property_id) then
    (true,
      { e with
        animations := e.animations.map
          (addKeyToAnimation property_id ⟨time, target_value, tween⟩) })
  else
    (false, e)

/-- Modelled from the spec: the body of `Element::Animate` is in the
missing `Element.cpp`.  The property name is resolved (false on an
unknown name); any existing entry of the same property is replaced by
a fresh animation entry; then the target value is added as a key at
time `delay + duration`. -/
def Element.Animate (env : StyleEnv) (e : Element) (property_name : String)
    (target_value : Property) (duration : ℚ) (tween : Tween)
    (num_iterations : Int) (alternate_direction : Bool) (delay : ℚ)
    (start_value : Option Property) : Bool × Element :=
  match env.idOf property_name with
  | none => (false, e)
  | some id =>
    let e1 := e.StartAnimation env id start_value num_iterations
      alternate_direction delay
    e1.AddAnimationKeyTime id target_value (delay + duration) tween

/-- Modelled from the spec: the body of `Element::AddAnimationKey` is
in the missing `Element.cpp`.  The name is resolved; the key is added
at the end of the existing animation, at absolute time current
duration plus the key's own duration, extending the total duration;
without an existing animation the call is ignored and false
returned. -/
def Element.AddAnimationKey (env : StyleEnv) (e : Element)
    (property_name : String) (target_value : Property) (duration : ℚ)
    (tween : Tween) : Bool × Element :=
  match env.idOf property_name with
  | none => (false, e)
  | some id =>
    match e.animations.find? (fun a => a.property_id = id) with
    | none => (false, e)
    | some a =>
      e.AddAnimationKeyTime id target_value (a.duration + duration) tween

/-- The single-shot entry created for a CSS-style transition. -/
def freshTransitionEntry (property_id : PropertyId)
    (start_value target_value : Property) (duration : ℚ) (tween : Tween)
    (delay : ℚ) : ElementAnimation :=
  { property_id := property_id
    origin := .transition
    start_value := start_value
    keys := [⟨delay + duration, target_value, tween⟩]
    num_iterations := 1
    alternate_direction := false
    delay := delay }

/-- Modelled from the spec: the body of `Element::StartTransition` is
in the missing `Element.cpp`.  If an animation-origin entry exists for
the property the call is ignored; an existing transition-origin entry
is replaced; otherwise the transition is added, as a single-shot entry
with one key. -/
def Element.StartTransition (e : Element) (property_id : PropertyId)
    (start_value target_value : Property) (duration : ℚ) (tween : Tween)
    (delay : ℚ) : Bool × Element :=
  match e.animations.find? (fun a => a.property_id = property_id) with
  | some a =>
    match a.origin with
    | .animation => (false, e)
    | .transition =>
      (true,
        { e with
          animations :=
            (e.animations.filter (fun b => b.property_id ≠ property_id)) ++
              [freshTransitionEntry property_id start_value target_value
                duration tween delay] })
  | none =>
    (true,
      { e with
        animations := e.animations ++
          [freshTransitionEntry property_id start_value target_value
            duration tween delay] })

/-! ## Pull-based derived state (Element.h lines 128-132, 152-158) -/

/-- Modelled from the spec: the body of `Element::GetBox` is in the
missing `Element.cpp`.  Recomputation is pull-based: when `box_dirty`
is set the cached main box is refreshed from the layout result and the
flag cleared; otherwise the cached value is returned untouched.  The
recompute counter instruments how often the refresh ran. -/
def Element.GetBox (e : Element) : Box × Element :=
  if e.box_dirty then
    (e.layout_box,
      { e with
        main_box := e.layout_box
        box_dirty := false
        box_recompute_count := e.box_recompute_count + 1 })
  else
    (e.main_box, e)

/-- Modelled from the spec: `Element::UpdateOffset` from the missing
`Element.cpp`: the absolute offset is the offset parent's absolute
offset plus this element's relative offset. -/
def Element.UpdateOffset (e : Element) : Element :=
  { e with
    absolute_offset := e.parent_absolute_offset.add e.relative_offset
    offset_dirty := false
    offset_recompute_count := e.offset_recompute_count + 1 }

/-- Modelled from the spec: the body of `Element::GetAbsoluteOffset`
is in the missing `Element.cpp`.  When `offset_dirty` is set the
cached absolute offset is recomputed (clearing the flag) before it is
returned; otherwise the cached value is returned untouched. -/
def Element.GetAbsoluteOffset (e : Element) : Vec2 × Element :=
  if e.offset_dirty then
    let e2 := e.UpdateOffset
    (e2.absolute_offset, e2)
  else
    (e.absolute_offset, e)

/-! ## Stacking context (Element.h lines 626-628) -/

/-- A member of a stacking context as seen by the resolver: its id,
its effective z-index, and its position in document (tree) order. -/
structure StackMember where
  elem : ElemId
  z_index : ℚ
  doc_order : Nat
deriving DecidableEq, Repr

/-- The before-or-equal ordering of the stacking resolver: ascending
effective z-index, with document order breaking ties. -/
def stackRel (a b : StackMember) : Prop :=
  a.z_index < b.z_index ∨ (a.z_index = b.z_index ∧ a.doc_order ≤ b.doc_order)

instance : DecidableRel stackRel := fun a b => by
  unfold stackRel; infer_instance

instance : IsTotal StackMember stackRel where
  total a b := by
    unfold stackRel
    rcases lt_trichotomy a.z_index b.z_index with h | h | h
    · exact Or.inl (Or.inl h)
    · rcases Nat.le_total a.doc_order b.doc_order with hd | hd
      · exact Or.inl (Or.inr ⟨h, hd⟩)
      · exact Or.inr (Or.inr ⟨h.symm, hd⟩)
    · exact Or.inr (Or.inl h)

instance : IsTrans StackMember stackRel where
  trans a b c hab hbc := by
    unfold stackRel at *
    rcases hab with h1 | ⟨h1, d1⟩
    · rcases hbc with h2 | ⟨h2, _⟩
      · exact Or.inl (h1.trans h2)
      · exact Or.inl (h2 ▸ h1)
    · rcases hbc with h2 | ⟨h2, d2⟩
      · exact Or.inl (h1 ▸ h2)
      · exact Or.inr ⟨h1.trans h2, d1.trans d2⟩

/-- Modelled from the spec: the body of
`Element::BuildStackingContext` is in the missing `Element.cpp`.  The
members of the context are ordered "by effective z-index then by tree
(document) order for ties". -/
def BuildStackingContext (members : List StackMember) : List StackMember :=
  members.insertionSort stackRel

/-! ## The element tree (Element.h lines 492-512, 714-715)

Pointer-based exclusive ownership is embedded as an id-indexed store:
each element holds its ordered child-id list (with the trailing
`num_non_dom_children` ids being the non-DOM block) and a non-owning
parent back-reference.  An `ElementPtr` argument (a detached element
handed over by the caller) is embedded as the id of a parentless
element of the store; a returned `ElementPtr` is the id of the element
made parentless, which stays in the store (ownership is transferred,
the element is not destroyed). -/

/-- The element store: the embedding of the heap of live elements. -/
abbrev Forest := List (ElemId × Element)

/-- Looks an element up by id (the embedding of dereferencing an
`Element*`). -/
def getE : Forest → ElemId → Option Element
  | [], _ => none
  | (j, e) :: f, i => if i = j then some e else getE f i

/-- Applies an update to the element with the given id, leaving every
other element unchanged. -/
def setE (f : Forest) (i : ElemId) (g : Element → Element) : Forest :=
  f.map (fun pr => if pr.1 = i then (pr.1, g pr.2) else pr)

/-- The ids present in the store. -/
def keys (f : Forest) : List ElemId := f.map Prod.fst

/-- The child-id list of an element (empty for an absent id). -/
def childrenOf (f : Forest) (i : ElemId) : List ElemId :=
  match getE f i with
  | some e => e.children
  | none => []

/-- The `num_non_dom_children` counter of an element. -/
def numNonDomOf (f : Forest) (i : ElemId) : Nat :=
  match getE f i with
  | some e => e.num_non_dom_children
  | none => 0

/-- The parent back-reference of an element. -/
def parentOf (f : Forest) (i : ElemId) : Option ElemId :=
  match getE f i with
  | some e => e.parent
  | none => none

/-- The DOM-participation flag of an element. -/
def domOf (f : Forest) (i : ElemId) : Option Bool :=
  (getE f i).map Element.dom

/-- The DOM block of a child list: everything before the trailing
non-DOM block. -/
def domChildren (f : Forest) (i : ElemId) : List ElemId :=
  (childrenOf f i).take ((childrenOf f i).length - numNonDomOf f i)

/-- The trailing non-DOM block of a child list. -/
def nonDomChildren (f : Forest) (i : ElemId) : List ElemId :=
  (childrenOf f i).drop ((childrenOf f i).length - numNonDomOf f i)

/-- Modelled from the spec: the body of `Element::GetNumChildren` is
in the missing `Element.cpp`.  By default only DOM children are
counted; the non-DOM block is included only on request. -/
def Element.GetNumChildren (e : Element)
    (include_non_dom_elements : Bool := false) : Nat :=
  if include_non_dom_elements then e.children.length
  else e.children.length - e.num_non_dom_children

/-- `Element::GetNumChildren` read through the store. -/
def GetNumChildrenAt (f : Forest) (i : ElemId)
    (include_non_dom_elements : Bool) : Nat :=
  match getE f i with
  | some e => e.GetNumChildren include_non_dom_elements
  | none => 0

/-- List insertion at a position, the embedding of
`std::vector::insert` at an iterator. -/
def insertAt (l : List ElemId) (k : Nat) (c : ElemId) : List ElemId :=
  l.take k ++ c :: l.drop k

/-- Modelled from the spec: the body of `Element::AppendChild` is in
the missing `Element.cpp`.  The handed-over element must be a live,
detached element distinct from the target (the `ElementPtr`
discipline); otherwise the call is a no-op.  A DOM child is inserted
directly before the trailing non-DOM block; a non-DOM child is pushed
to the back and counted.  Both sides are updated together: the child
list of the parent, and the parent reference and DOM flag of the
child. -/
def AppendChild (f : Forest) (p c : ElemId) (dom_element : Bool) : Forest :=
  match getE f p, getE f c with
  | some _, some ec =>
    if ec.parent = none ∧ c ≠ p then
      let f1 := setE f p (fun e =>
        if dom_element then
          { e with
            children :=
              insertAt e.children
                (e.children.length - e.num_non_dom_children) c }
        else
          { e with
            children := e.children ++ [c]
            num_non_dom_children := e.num_non_dom_children + 1 })
      setE f1 c (fun e => { e with parent := some p, dom := dom_element })
    else f
  | _, _ => f

/-- Modelled from the spec: the body of `Element::InsertBefore` is in
the missing `Element.cpp`.  The new element is inserted directly
before the adjacent element and inherits the DOM/non-DOM status from
it (header doc); when the adjacent element is not a child the call is
a no-op. -/
def InsertBefore (f : Forest) (p c adj : ElemId) : Forest :=
  match getE f p, getE f c with
  | some ep, some ec =>
    if ec.parent = none ∧ c ≠ p ∧ adj ∈ ep.children then
      let adj_dom :=
        adj ∈ ep.children.take (ep.children.length - ep.num_non_dom_children)
      let f1 := setE f p (fun e =>
        { e with
          children :=
            (e.children.takeWhile (fun x => x ≠ adj)) ++
              c :: (e.children.dropWhile (fun x => x ≠ adj))
          num_non_dom_children :=
            if adj_dom then e.num_non_dom_children
            else e.num_non_dom_children + 1 })
      setE f1 c (fun e => { e with parent := some p, dom := adj_dom })
    else f
  | _, _ => f

/-- Modelled from the spec: the body of `Element::RemoveChild` is in
the missing `Element.cpp`.  When found, the child is unlinked from the
child list (adjusting the non-DOM counter if it sat in the non-DOM
block) and handed back to the caller parentless but still live; when
not found, `none` is returned and nothing changes. -/
def RemoveChild (f : Forest) (p c : ElemId) : Option ElemId × Forest :=
  match getE f p with
  | some ep =>
    if c ∈ ep.children ∧ c ≠ p then
      let c_dom :=
        c ∈ ep.children.take (ep.children.length - ep.num_non_dom_children)
      let f1 := setE f p (fun e =>
        { e with
          children := e.children.erase c
          num_non_dom_children :=
            if c_dom then e.num_non_dom_children
            else e.num_non_dom_children - 1 })
      (some c, setE f1 c (fun e => { e with parent := none }))
    else (none, f)
  | none => (none, f)

/-- Modelled from the spec: the body of `Element::ReplaceChild` is in
the missing `Element.cpp`.  When the replaced element is a child, the
new element is inserted directly before it and the replaced element
is then removed and returned to the caller; when it is not found, the
new element is appended instead and `none` returned. -/
def ReplaceChild (f : Forest) (p ins rep : ElemId) : Option ElemId × Forest :=
  match getE f p with
  | some ep =>
    if rep ∈ ep.children then
      RemoveChild (InsertBefore f p ins rep) p rep
    else
      (none, AppendChild f p ins true)
  | none => (none, f)

/-- One structural mutation of the tree. -/
inductive TreeOp where
  | append (p c : ElemId) (dom_element : Bool)
  | insert (p c adj : ElemId)
  | remove (p c : ElemId)
  | replace (p ins rep : ElemId)

/-- Runs one structural mutation on the store. -/
def applyTreeOp (f : Forest) : TreeOp → Forest
  | .append p c d => AppendChild f p c d
  | .insert p c adj => InsertBefore f p c adj
  | .remove p c => (RemoveChild f p c).2
  | .replace p ins rep => (ReplaceChild f p ins rep).2

/-- Runs a sequence of structural mutations on the store. -/
def applyTreeOps (f : Forest) (ops : List TreeOp) : Forest :=
  ops.foldl applyTreeOp f

/-- Conditional holding of a predicate over an optional value. -/
def optionHolds (o : Option α) (P : α → Prop) : Prop :=
  match o with
  | none => True
  | some a => P a

instance {α} (o : Option α) (P : α → Prop) [inst : ∀ a, Decidable (P a)] :
    Decidable (optionHolds o P) :=
  match o with
  | none => isTrue trivial
  | some a => inst a

/-- Tree consistency at one element: its child list is duplicate-free
and splits into the DOM block followed by the non-DOM block, every
child's parent reference names this element (with the matching DOM
flag), and its own parent reference is matched by membership in that
parent's child list. -/
def nodeOk (f : Forest) (i : ElemId) : Prop :=
  (childrenOf f i).Nodup ∧
  numNonDomOf f i ≤ (childrenOf f i).length ∧
  (∀ c ∈ domChildren f i, parentOf f c = some i ∧ domOf f c = some true) ∧
  (∀ c ∈ nonDomChildren f i, parentOf f c = some i ∧ domOf f c = some false) ∧
  optionHolds (parentOf f i) (fun q => i ∈ childrenOf f q)

/-- Tree consistency of the whole store: ids are unique and every
element satisfies `nodeOk`. -/
def WF (f : Forest) : Prop :=
  (keys f).Nodup ∧ ∀ i ∈ keys f, nodeOk f i

instance (f : Forest) (i : ElemId) : Decidable (nodeOk f i) := by
  unfold nodeOk
  infer_instance

instance (f : Forest) : Decidable (WF f) := by
  unfold WF
  infer_instance

/-! ## Animation operation sequences -/

/-- One operation of the animation engine, as reachable through the
public API and the transition machinery. -/
inductive AnimOp where
  | animate (property_name : String) (target_value : Property)
      (duration : ℚ) (tween : Tween) (num_iterations : Int)
      (alternate_direction : Bool) (delay : ℚ)
      (start_value : Option Property)
  | addKey (property_name : String) (target_value : Property)
      (duration : ℚ) (tween : Tween)
  | transition (property_id : PropertyId) (start_value : Property)
      (target_value : Property) (duration : ℚ) (tween : Tween) (delay : ℚ)

/-- Runs one animation operation on an element. -/
def applyAnimOp (env : StyleEnv) (e : Element) : AnimOp → Element
  | .animate name target duration tween iters alt delay start =>
    (e.Animate env name target duration tween iters alt delay start).2
  | .addKey name target duration tween =>
    (e.AddAnimationKey env name target duration tween).2
  | .transition id start target duration tween delay =>
    (e.StartTransition id start target duration tween delay).2

/-- Runs a sequence of animation operations on an element. -/
def applyAnimOps (env : StyleEnv) (e : Element) (ops : List AnimOp) : Element :=
  ops.foldl (applyAnimOp env) e

/-- At most one active entry per property id: the property ids of the
animation list are duplicate-free. -/
def AnimUnique (e : Element) : Prop :=
  (e.animations.map ElementAnimation.property_id).Nodup

instance (e : Element) : Decidable (AnimUnique e) := by
  unfold AnimUnique
  infer_instance

/-! ## Concrete sample data -/

/-- A small concrete style environment: two known property names with
a cascaded value for the first, and a parser accepting two spellings. -/
def testEnv : StyleEnv where
  idOf := fun s => if s = "width" then some 0
    else if s = "height" then some 1 else none
  defaultOf := fun _ => ⟨0, .px⟩
  cascade := fun id => if id = 0 then some ⟨50, .px⟩ else none
  parse := fun _ s => if s = "10px" then some ⟨10, .px⟩
    else if s = "50pc" then some ⟨50, .percent⟩ else none

/-- A concrete active animation entry for property id 0. -/
def sampleAnimEntry : ElementAnimation :=
  { property_id := 0
    origin := .animation
    start_value := ⟨0, .px⟩
    keys := [⟨2, ⟨9, .px⟩, {}⟩]
    num_iterations := 1
    alternate_direction := false
    delay := 0 }

/-- A concrete element with one local override and one animation. -/
def sampleElem : Element :=
  { tag := "div"
    local_props := [(1, ⟨7, .px⟩)]
    additional_boxes := [{ offset := ⟨5, 5⟩, size := ⟨6, 6⟩ }]
    main_box := { offset := ⟨1, 1⟩, size := ⟨2, 2⟩ }
    layout_box := { offset := ⟨3, 3⟩, size := ⟨4, 4⟩ }
    box_dirty := true
    relative_offset := ⟨5, 5⟩
    parent_absolute_offset := ⟨10, 10⟩
    offset_dirty := true
    animations := [sampleAnimEntry] }

/-- A concrete animation-operation sequence: an animation replacing
the active entry of property 0, a key extension, and a transition on
property 1. -/
def sampleAnimOps : List AnimOp :=
  [.animate "width" ⟨1, .px⟩ 2 {} 1 true 0 none,
   .addKey "width" ⟨3, .px⟩ 1 {},
   .transition 1 ⟨0, .px⟩ ⟨5, .px⟩ 1 {} 0]

/-- A concrete store: a root with one attached child, plus two
detached elements available for attachment. -/
def sampleForest : Forest :=
  [(0, { tag := "body", children := [1] }),
   (1, { tag := "div", parent := some 0 }),
   (2, { tag := "p" }),
   (3, { tag := "span" })]

/-- A concrete mutation sequence exercising all four operations. -/
def sampleOps : List TreeOp :=
  [.append 0 2 false, .insert 0 3 1, .remove 0 3, .replace 0 3 1]

/-! # Theorems -/

/-- C10: for every element and every integer index, `GetBox(index)`
is total; an out-of-bounds index (negative, or at least
`GetNumBoxes()`) yields the main box, and index 0 yields the main
box. -/
theorem getBoxAt_total_out_of_bounds (e : Element) (index : Int)
    (h : index < 0 ∨ (e.GetNumBoxes : Int) ≤ index) :
    e.GetBoxAt index = e.main_box ∧ e.GetBoxAt 0 = e.main_box := by
  constructor
  · unfold Element.GetBoxAt
    rcases h with h | h
    · rw [if_pos (by omega)]
    · unfold Element.GetNumBoxes at h
      rw [if_neg (by push_cast at h ⊢; omega)]
      have hlen : e.additional_boxes.length ≤ (index - 1).toNat := by
        push_cast at h; omega
      rw [List.getElem?_eq_none hlen]
  · rfl

/-- Witness for C10 at a concrete element with one auxiliary box and
the out-of-bounds index 7. -/
theorem getBoxAt_total_out_of_bounds_witness :
    sampleElem.GetBoxAt 7 = sampleElem.main_box ∧
    sampleElem.GetBoxAt 0 = sampleElem.main_box :=
  getBoxAt_total_out_of_bounds sampleElem 7 (Or.inr (by decide))

/-- C9: `ResolveLengthPercentage` is pure — the element state after
the call is the state before it — and it returns px values unchanged
and scales percentage values by the base value. -/
theorem resolveLengthPercentage_pure (e : Element) (p : Property)
    (base_value : ℚ) :
    (e.ResolveLengthPercentageOn p base_value).2 = e ∧
    (p.unit = .px →
      (e.ResolveLengthPercentageOn p base_value).1 = p.value) ∧
    (p.unit = .percent →
      (e.ResolveLengthPercentageOn p base_value).1 =
        p.value * base_value / 100) := by
  refine ⟨rfl, ?_, ?_⟩ <;> intro h <;>
    simp [Element.ResolveLengthPercentageOn, ResolveLengthPercentage, h]

/-- Witness for C9: a 50-percent property against base 200 resolves
with no element mutation. -/
theorem resolveLengthPercentage_pure_witness :
    (sampleElem.ResolveLengthPercentageOn ⟨50, .percent⟩ 200).2 =
        sampleElem ∧
    (sampleElem.ResolveLengthPercentageOn ⟨50, .percent⟩ 200).1 =
      50 * 200 / 100 :=
  ⟨(resolveLengthPercentage_pure sampleElem ⟨50, .percent⟩ 200).1,
   (resolveLengthPercentage_pure sampleElem ⟨50, .percent⟩ 200).2.2 rfl⟩

/-- C8: reading derived state twice with no intervening mutation —
here `GetBox` and `GetAbsoluteOffset` — returns the same value both
times and leaves the state of the first read untouched (the second
read is a pure cache read and performs no recomputation); the first
read leaves the dirty flag clear, and it runs the recomputation at
most once. -/
theorem derived_state_double_read (e : Element) :
    (e.GetBox.2.GetBox = (e.GetBox.1, e.GetBox.2) ∧
      e.GetBox.2.box_dirty = false ∧
      e.GetBox.2.box_recompute_count ≤ e.box_recompute_count + 1) ∧
    (e.GetAbsoluteOffset.2.GetAbsoluteOffset =
        (e.GetAbsoluteOffset.1, e.GetAbsoluteOffset.2) ∧
      e.GetAbsoluteOffset.2.offset_dirty = false ∧
      e.GetAbsoluteOffset.2.offset_recompute_count ≤
        e.offset_recompute_count + 1) := by
  constructor
  · by_cases hb : e.box_dirty <;> simp [Element.GetBox, hb]
  · by_cases ho : e.offset_dirty <;>
      simp [Element.GetAbsoluteOffset, Element.UpdateOffset, ho]

/-- C6: the resolved stacking order is a permutation of the members,
sorted by effective z-index ascending with document order breaking
ties; in particular explicit z-indices 3, 1, 2 in document order
resolve to render order 1, 2, 3. -/
theorem stacking_context_order (members : List StackMember) :
    List.Perm (BuildStackingContext members) members ∧
    List.Sorted stackRel (BuildStackingContext members) ∧
    BuildStackingContext
        [⟨10, 3, 0⟩, ⟨11, 1, 1⟩, ⟨12, 2, 2⟩] =
      [⟨11, 1, 1⟩, ⟨12, 2, 2⟩, ⟨10, 3, 0⟩] :=
  ⟨List.perm_insertionSort stackRel members,
   List.sorted_insertionSort stackRel members,
   by decide⟩

/-- Removing a key from an association list makes a subsequent lookup
of that key fail. -/
theorem lookup_removeAssoc (l : List (PropertyId × Property))
    (id : PropertyId) : (removeAssoc l id).lookup id = none := by
  induction l with
  | nil => rfl
  | cons kv t ih =>
    by_cases h : kv.1 = id
    · simpa [removeAssoc, List.filter_cons, h] using ih
    · have hbeq : (id == kv.1) = false :=
        beq_eq_false_iff_ne.mpr (fun he => h he.symm)
      simpa [removeAssoc, List.filter_cons, h, List.lookup, hbeq] using ih

/-- C3: property resolution runs local override, then cascaded value,
then defined default; an unknown name resolves to `none`; and after
removing a local override the cascaded value is returned again. -/
theorem property_resolution (env : StyleEnv) (e : Element) (name : String)
    (id : PropertyId) (p c : Property) :
    (env.idOf name = none → e.GetProperty env name = none) ∧
    (e.GetLocalProperty id = some p → e.GetPropertyById env id = p) ∧
    (e.GetLocalProperty id = none → env.cascade id = some c →
      e.GetPropertyById env id = c) ∧
    (e.GetLocalProperty id = none → env.cascade id = none →
      e.GetPropertyById env id = env.defaultOf id) ∧
    (env.idOf name = some id → env.cascade id = some c →
      (e.RemoveProperty env name).GetProperty env name = some c) := by
  refine ⟨?_, ?_, ?_, ?_, ?_⟩
  · intro h
    simp [Element.GetProperty, h]
  · intro h
    simp [Element.GetPropertyById, h]
  · intro h hc
    simp [Element.GetPropertyById, h, hc]
  · intro h hc
    simp [Element.GetPropertyById, h, hc]
  · intro h hc
    simp [Element.RemoveProperty, h, Element.GetProperty,
      Element.GetPropertyById, Element.RemovePropertyById,
      Element.GetLocalProperty, lookup_removeAssoc, hc]

/-- Witness for C3 on the concrete environment: unknown name, local
hit, cascade hit, default fallback, and revert after removal. -/
theorem property_resolution_witness :
    sampleElem.GetProperty testEnv "flex" = none ∧
    sampleElem.GetPropertyById testEnv 1 = ⟨7, .px⟩ ∧
    sampleElem.GetPropertyById testEnv 0 = ⟨50, .px⟩ ∧
    sampleElem.GetPropertyById testEnv 2 = testEnv.defaultOf 2 ∧
    (sampleElem.RemoveProperty testEnv "width").GetProperty testEnv "width" =
      some ⟨50, .px⟩ :=
  ⟨(property_resolution testEnv sampleElem "flex" 0 ⟨0, .px⟩ ⟨0, .px⟩).1
      (by decide),
   (property_resolution testEnv sampleElem "width" 1 ⟨7, .px⟩ ⟨0, .px⟩).2.1
      (by decide),
   (property_resolution testEnv sampleElem "width" 0 ⟨0, .px⟩
      ⟨50, .px⟩).2.2.1 (by decide) (by decide),
   (property_resolution testEnv sampleElem "width" 2 ⟨0, .px⟩
      ⟨0, .px⟩).2.2.2.1 (by decide) (by decide),
   (property_resolution testEnv sampleElem "width" 0 ⟨0, .px⟩
      ⟨50, .px⟩).2.2.2.2 (by decide) (by decide)⟩

/-- C5: the string form of `SetProperty` succeeds exactly when the
name is known and the value parses; on failure the element — its
local overrides, caches and dirty flags included — is unchanged. -/
theorem set_property_parse_failure (env : StyleEnv) (e : Element)
    (name value : String) :
    ((e.SetProperty env name value).1 = true ↔
      ∃ id, env.idOf name = some id ∧ (env.parse id value).isSome = true) ∧
    ((e.SetProperty env name value).1 = false →
      (e.SetProperty env name value).2 = e) := by
  unfold Element.SetProperty
  cases h : env.idOf name with
  | none => simp
  | some id =>
    cases hp : env.parse id value with
    | none => simp [hp]
    | some p => simp [hp]

/-- Witness for C5: a failing parse leaves the concrete element
untouched, and a successful parse reports true. -/
theorem set_property_parse_failure_witness :
    (sampleElem.SetProperty testEnv "width" "bogus").2 = sampleElem ∧
    (sampleElem.SetProperty testEnv "width" "10px").1 = true :=
  ⟨(set_property_parse_failure testEnv sampleElem "width" "bogus").2
      (by decide),
   (set_property_parse_failure testEnv sampleElem "width" "10px").1.mpr
      ⟨0, by decide, by decide⟩⟩

/-- Unfolding of `Animate` at an unknown property name. -/
theorem Animate_eq_of_unknown (env : StyleEnv) (e : Element) (name : String)
    (target : Property) (duration : ℚ) (tween : Tween) (iters : Int)
    (alt : Bool) (delay : ℚ) (start : Option Property)
    (h : env.idOf name = none) :
    e.Animate env name target duration tween iters alt delay start =
      (false, e) := by
  unfold Element.Animate
  rw [h]

/-- Unfolding of `Animate` at a known property name. -/
theorem Animate_eq_of_known (env : StyleEnv) (e : Element) (name : String)
    (target : Property) (duration : ℚ) (tween : Tween) (iters : Int)
    (alt : Bool) (delay : ℚ) (start : Option Property) (id : PropertyId)
    (h : env.idOf name = some id) :
    e.Animate env name target duration tween iters alt delay start =
      (e.StartAnimation env id start iters alt delay).AddAnimationKeyTime
        id target (delay + duration) tween := by
  unfold Element.Animate
  rw [h]

/-- Unfolding of `AddAnimationKeyTime` when an entry exists. -/
theorem AddAnimationKeyTime_eq_of_any (e : Element) (id : PropertyId)
    (target : Property) (time : ℚ) (tween : Tween)
    (h : (e.animations.any fun a => a.property_id = id) = true) :
    e.AddAnimationKeyTime id target time tween =
      (true,
        { e with
          animations := e.animations.map
            (addKeyToAnimation id ⟨time, target, tween⟩) }) := by
  simp [Element.AddAnimationKeyTime, h]

/-- Unfolding of `AddAnimationKeyTime` when no entry exists. -/
theorem AddAnimationKeyTime_eq_of_not_any (e : Element) (id : PropertyId)
    (target : Property) (time : ℚ) (tween : Tween)
    (h : (e.animations.any fun a => a.property_id = id) = false) :
    e.AddAnimationKeyTime id target time tween = (false, e) := by
  simp [Element.AddAnimationKeyTime, h]

/-- Unfolding of `AddAnimationKey` at an unknown property name. -/
theorem AddAnimationKey_eq_of_unknown (env : StyleEnv) (e : Element)
    (name : String) (target : Property) (duration : ℚ) (tween : Tween)
    (h : env.idOf name = none) :
    e.AddAnimationKey env name target duration tween = (false, e) := by
  unfold Element.AddAnimationKey
  rw [h]

/-- Unfolding of `AddAnimationKey` when no entry exists for the
property. -/
theorem AddAnimationKey_eq_of_no_entry (env : StyleEnv) (e : Element)
    (name : String) (target : Property) (duration : ℚ) (tween : Tween)
    (id : PropertyId) (hid : env.idOf name = some id)
    (hf : e.animations.find? (fun a => a.property_id = id) = none) :
    e.AddAnimationKey env name target duration tween = (false, e) := by
  unfold Element.AddAnimationKey
  rw [hid]
  show (match e.animations.find? (fun a => a.property_id = id) with
    | none => ((false, e) : Bool × Element)
    | some a =>
      e.AddAnimationKeyTime id target (a.duration + duration) tween) =
    (false, e)
  rw [hf]

/-- Unfolding of `AddAnimationKey` at an existing entry. -/
theorem AddAnimationKey_eq_of_entry (env : StyleEnv) (e : Element)
    (name : String) (target : Property) (duration : ℚ) (tween : Tween)
    (id : PropertyId) (a : ElementAnimation)
    (hid : env.idOf name = some id)
    (hf : e.animations.find? (fun b => b.property_id = id) = some a) :
    e.AddAnimationKey env name target duration tween =
      e.AddAnimationKeyTime id target (a.duration + duration) tween := by
  unfold Element.AddAnimationKey
  rw [hid]
  show (match e.animations.find? (fun b => b.property_id = id) with
    | none => ((false, e) : Bool × Element)
    | some b =>
      e.AddAnimationKeyTime id target (b.duration + duration) tween) =
    e.AddAnimationKeyTime id target (a.duration + duration) tween
  rw [hf]

/-- Appending a key to the entries of one property id leaves the
property ids of the list unchanged. -/
theorem map_pid_map_addKey (l : List ElementAnimation) (id : PropertyId)
    (k : AnimationKey) :
    ((l.map (addKeyToAnimation id k)).map ElementAnimation.property_id) =
      l.map ElementAnimation.property_id := by
  induction l with
  | nil => rfl
  | cons a t ih =>
    by_cases h : a.property_id = id <;> simp [addKeyToAnimation, h, ih]

/-- Filtering for a property id after filtering it away yields
nothing. -/
theorem filter_pid_filter_ne (l : List ElementAnimation) (id : PropertyId) :
    (l.filter (fun a => a.property_id ≠ id)).filter
      (fun a => a.property_id = id) = [] := by
  induction l with
  | nil => rfl
  | cons a t ih =>
    by_cases h : a.property_id = id <;> simp [List.filter_cons, h, ih]

/-- Key appending commutes with filtering for the key's property
id. -/
theorem filter_pid_map_addKey (l : List ElementAnimation) (id : PropertyId)
    (k : AnimationKey) :
    ((l.map (addKeyToAnimation id k)).filter (fun a => a.property_id = id)) =
      (l.filter (fun a => a.property_id = id)).map
        (fun a => { a with keys := a.keys ++ [k] }) := by
  induction l with
  | nil => rfl
  | cons a t ih =>
    by_cases h : a.property_id = id <;>
      simp [addKeyToAnimation, List.filter_cons, h, ih]

/-- Key appending commutes with finding the key's property id. -/
theorem find_pid_map_addKey (l : List ElementAnimation) (id : PropertyId)
    (k : AnimationKey) :
    ((l.map (addKeyToAnimation id k)).find? (fun a => a.property_id = id)) =
      (l.find? (fun a => a.property_id = id)).map
        (fun a => { a with keys := a.keys ++ [k] }) := by
  induction l with
  | nil => rfl
  | cons a t ih =>
    by_cases h : a.property_id = id <;>
      simp [addKeyToAnimation, List.find?_cons, h, ih]

/-- Nodup property ids survive filtering an id away and appending a
fresh entry carrying that id. -/
theorem animUnique_filter_append (l : List ElementAnimation)
    (id : PropertyId) (fresh : ElementAnimation)
    (hpid : fresh.property_id = id)
    (h : (l.map ElementAnimation.property_id).Nodup) :
    (((l.filter (fun a => a.property_id ≠ id)) ++ [fresh]).map
      ElementAnimation.property_id).Nodup := by
  rw [List.map_append, List.nodup_append]
  refine ⟨List.Nodup.sublist
      ((List.filter_sublist l).map ElementAnimation.property_id) h,
    List.nodup_singleton _, ?_⟩
  intro x hx hy
  rcases List.mem_map.mp hx with ⟨a, ha, rfl⟩
  rcases List.mem_filter.mp ha with ⟨-, hne⟩
  simp only [List.map_cons, List.map_nil, List.mem_singleton] at hy
  rw [hy, hpid] at hne
  simp at hne

/-- Unfolding of `StartTransition` when an animation-origin entry is
active for the property. -/
theorem StartTransition_eq_of_active_animation (e : Element)
    (id : PropertyId) (start target : Property) (duration : ℚ)
    (tween : Tween) (delay : ℚ) (a : ElementAnimation)
    (hf : e.animations.find? (fun b => b.property_id = id) = some a)
    (horig : a.origin = .animation) :
    e.StartTransition id start target duration tween delay = (false, e) := by
  unfold Element.StartTransition
  rw [hf]
  show (match a.origin with
    | AnimationOrigin.animation => ((false, e) : Bool × Element)
    | AnimationOrigin.transition =>
      (true,
        { e with
          animations :=
            (e.animations.filter
              (fun (b : ElementAnimation) => b.property_id ≠ id)) ++
              [freshTransitionEntry id start target duration tween
                delay] })) = (false, e)
  rw [horig]

/-- Unfolding of `StartTransition` when a transition-origin entry is
active for the property. -/
theorem StartTransition_eq_of_active_transition (e : Element)
    (id : PropertyId) (start target : Property) (duration : ℚ)
    (tween : Tween) (delay : ℚ) (a : ElementAnimation)
    (hf : e.animations.find? (fun b => b.property_id = id) = some a)
    (horig : a.origin = .transition) :
    e.StartTransition id start target duration tween delay =
      (true,
        { e with
          animations :=
            (e.animations.filter (fun b => b.property_id ≠ id)) ++
              [freshTransitionEntry id start target duration tween
                delay] }) := by
  unfold Element.StartTransition
  rw [hf]
  show (match a.origin with
    | AnimationOrigin.animation => ((false, e) : Bool × Element)
    | AnimationOrigin.transition =>
      (true,
        { e with
          animations :=
            (e.animations.filter
              (fun (b : ElementAnimation) => b.property_id ≠ id)) ++
              [freshTransitionEntry id start target duration tween
                delay] })) = _
  rw [horig]

/-- Unfolding of `StartTransition` when no entry is active for the
property. -/
theorem StartTransition_eq_of_no_entry (e : Element) (id : PropertyId)
    (start target : Property) (duration : ℚ) (tween : Tween) (delay : ℚ)
    (hf : e.animations.find? (fun b => b.property_id = id) = none) :
    e.StartTransition id start target duration tween delay =
      (true,
        { e with
          animations := e.animations ++
            [freshTransitionEntry id start target duration tween
              delay] }) := by
  unfold Element.StartTransition
  rw [hf]

/-- Uniqueness of active entries per property id is preserved when a
key is appended to one entry. -/
theorem animUnique_map_addKey (e : Element) (id : PropertyId)
    (k : AnimationKey) (h : AnimUnique e) :
    AnimUnique { e with
      animations := e.animations.map (addKeyToAnimation id k) } := by
  unfold AnimUnique at *
  show ((e.animations.map (addKeyToAnimation id k)).map
    ElementAnimation.property_id).Nodup
  rw [map_pid_map_addKey]
  exact h

/-- One animation-engine operation preserves uniqueness of active
entries per property id. -/
theorem animUnique_applyAnimOp (env : StyleEnv) (e : Element) (op : AnimOp)
    (h : AnimUnique e) : AnimUnique (applyAnimOp env e op) := by
  cases op with
  | animate name target duration tween iters alt delay start =>
    show AnimUnique (e.Animate env name target duration tween
      iters alt delay start).2
    cases hid : env.idOf name with
    | none =>
      rw [Animate_eq_of_unknown env e name target duration tween
        iters alt delay start hid]
      exact h
    | some id =>
      rw [Animate_eq_of_known env e name target duration tween
        iters alt delay start id hid]
      have h1 : AnimUnique (e.StartAnimation env id start iters alt delay) :=
        animUnique_filter_append e.animations id
          (freshAnimationEntry env e id start iters alt delay) rfl h
      cases hany : ((e.StartAnimation env id start iters
          alt delay).animations.any fun a => a.property_id = id) with
      | false =>
        rw [AddAnimationKeyTime_eq_of_not_any _ id target
          (delay + duration) tween hany]
        exact h1
      | true =>
        rw [AddAnimationKeyTime_eq_of_any _ id target
          (delay + duration) tween hany]
        exact animUnique_map_addKey _ id _ h1
  | addKey name target duration tween =>
    show AnimUnique (e.AddAnimationKey env name target duration tween).2
    cases hid : env.idOf name with
    | none =>
      rw [AddAnimationKey_eq_of_unknown env e name target duration tween hid]
      exact h
    | some id =>
      cases hf : e.animations.find? (fun b => b.property_id = id) with
      | none =>
        rw [AddAnimationKey_eq_of_no_entry env e name target duration tween
          id hid hf]
        exact h
      | some a =>
        rw [AddAnimationKey_eq_of_entry env e name target duration tween
          id a hid hf]
        cases hany : (e.animations.any fun b => b.property_id = id) with
        | false =>
          rw [AddAnimationKeyTime_eq_of_not_any e id target
            (a.duration + duration) tween hany]
          exact h
        | true =>
          rw [AddAnimationKeyTime_eq_of_any e id target
            (a.duration + duration) tween hany]
          exact animUnique_map_addKey e id _ h
  | transition id start target duration tween delay =>
    show AnimUnique (e.StartTransition id start target duration tween delay).2
    cases hf : e.animations.find? (fun b => b.property_id = id) with
    | none =>
      have hnot : ∀ a ∈ e.animations, a.property_id ≠ id := by
        intro a ha
        have := List.find?_eq_none.mp hf a ha
        simpa using this
      rw [StartTransition_eq_of_no_entry e id start target duration tween
        delay hf]
      unfold AnimUnique
      show ((e.animations ++
        [freshTransitionEntry id start target duration tween delay]).map
          ElementAnimation.property_id).Nodup
      simp only [List.map_append, List.nodup_append]
      refine ⟨h, by simp, ?_⟩
      intro x hx hy
      rcases List.mem_map.mp hx with ⟨a, ha, rfl⟩
      simp only [List.map_cons, List.map_nil, List.mem_singleton] at hy
      exact absurd hy (hnot a ha)
    | some a =>
      cases horig : a.origin with
      | animation =>
        rw [StartTransition_eq_of_active_animation e id start target
          duration tween delay a hf horig]
        exact h
      | transition =>
        rw [StartTransition_eq_of_active_transition e id start target
          duration tween delay a hf horig]
        exact animUnique_filter_append e.animations id
          (freshTransitionEntry id start target duration tween delay) rfl h

/-- A sequence of animation-engine operations preserves uniqueness of
active entries per property id. -/
theorem animUnique_applyAnimOps (env : StyleEnv) (e : Element)
    (ops : List AnimOp) (h : AnimUnique e) :
    AnimUnique (applyAnimOps env e ops) := by
  induction ops generalizing e with
  | nil => exact h
  | cons op t ih => exact ih _ (animUnique_applyAnimOp env e op h)

/-- Unique property ids bound the per-id entry count by one. -/
theorem filter_length_le_one_of_nodup (l : List ElementAnimation)
    (h : (l.map ElementAnimation.property_id).Nodup) (pid : PropertyId) :
    (l.filter (fun a => a.property_id = pid)).length ≤ 1 := by
  induction l with
  | nil => simp
  | cons a t ih =>
    simp only [List.map_cons, List.nodup_cons] at h
    by_cases hp : a.property_id = pid
    · have ht : t.filter (fun a => a.property_id = pid) = [] := by
        apply List.filter_eq_nil_iff.mpr
        intro b hb
        simp only [decide_eq_true_eq]
        intro hbp
        exact h.1 (List.mem_map.mpr ⟨b, hb, by rw [hbp, hp]⟩)
      simp [List.filter_cons, hp, ht]
    · simpa [List.filter_cons, hp] using ih h.2

/-- The animation list produced by `StartAnimation`. -/
theorem StartAnimation_animations (env : StyleEnv) (e : Element)
    (id : PropertyId) (start : Option Property) (iters : Int) (alt : Bool)
    (delay : ℚ) :
    (e.StartAnimation env id start iters alt delay).animations =
      e.animations.filter (fun a => a.property_id ≠ id) ++
        [freshAnimationEntry env e id start iters alt delay] := rfl

/-- C2: over any operation sequence of the animation engine an element
keeps at most one active entry per property id, and `Animate` on an
already-animated property replaces the entry, leaving exactly one
active entry for that property — the new one. -/
theorem animation_single_entry (env : StyleEnv) (e : Element)
    (ops : List AnimOp) (name : String) (id : PropertyId)
    (target : Property) (duration : ℚ) (tween : Tween) (iters : Int)
    (alt : Bool) (delay : ℚ) (start : Option Property)
    (hu : AnimUnique e) :
    AnimUnique (applyAnimOps env e ops) ∧
    (∀ pid, ((applyAnimOps env e ops).animations.filter
        (fun a => a.property_id = pid)).length ≤ 1) ∧
    (env.idOf name = some id →
      ((e.Animate env name target duration tween iters alt delay
          start).2.animations.filter (fun a => a.property_id = id)) =
        [{ freshAnimationEntry env e id start iters alt delay with
            keys := [⟨delay + duration, target, tween⟩] }]) := by
  have h2 := animUnique_applyAnimOps env e ops hu
  have h2n := h2
  unfold AnimUnique at h2n
  refine ⟨h2, fun pid => filter_length_le_one_of_nodup _ h2n pid, ?_⟩
  intro hid
  rw [Animate_eq_of_known env e name target duration tween iters alt delay
    start id hid]
  have hmem : freshAnimationEntry env e id start iters alt delay ∈
      (e.StartAnimation env id start iters alt delay).animations := by
    rw [StartAnimation_animations]
    exact List.mem_append_right _ (List.mem_singleton_self _)
  have hany : ((e.StartAnimation env id start iters
      alt delay).animations.any fun a => a.property_id = id) = true :=
    List.any_eq_true.mpr ⟨_, hmem, by simp [freshAnimationEntry]⟩
  rw [AddAnimationKeyTime_eq_of_any _ id target (delay + duration) tween hany]
  show (((e.StartAnimation env id start iters alt delay).animations.map
      (addKeyToAnimation id ⟨delay + duration, target, tween⟩)).filter
    (fun a => a.property_id = id)) = _
  rw [StartAnimation_animations, List.map_append, List.filter_append,
    filter_pid_map_addKey, filter_pid_filter_ne]
  simp [addKeyToAnimation, freshAnimationEntry]

/-- Witness for C2 on the concrete element: the operation sequence
keeps entries unique, and animating `width` (property id 0, already
animated) leaves exactly the one new entry. -/
theorem animation_single_entry_witness :
    AnimUnique (applyAnimOps testEnv sampleElem sampleAnimOps) ∧
    (∀ pid, ((applyAnimOps testEnv sampleElem
        sampleAnimOps).animations.filter
        (fun a => a.property_id = pid)).length ≤ 1) ∧
    ((sampleElem.Animate testEnv "width" ⟨1, .px⟩ 2 {} 1 true 0
        none).2.animations.filter (fun a => a.property_id = 0)) =
      [{ freshAnimationEntry testEnv sampleElem 0 none 1 true 0 with
          keys := [⟨0 + 2, ⟨1, .px⟩, {}⟩] }] := by
  have h := animation_single_entry testEnv sampleElem sampleAnimOps "width" 0
    ⟨1, .px⟩ 2 {} 1 true 0 none (by decide)
  exact ⟨h.1, h.2.1, h.2.2 (by decide)⟩

/-- C4: `AddAnimationKey` with no active animation for the property
(or an unknown name) returns false and leaves the element unchanged;
with an active animation it appends a key with the given target and
tween at the current duration extended by the key's duration, and
returns true. -/
theorem add_animation_key_extends (env : StyleEnv) (e : Element)
    (name : String) (target : Property) (duration : ℚ) (tween : Tween)
    (id : PropertyId) (a : ElementAnimation) :
    (env.idOf name = none →
      e.AddAnimationKey env name target duration tween = (false, e)) ∧
    (env.idOf name = some id →
      e.animations.find? (fun b => b.property_id = id) = none →
      e.AddAnimationKey env name target duration tween = (false, e)) ∧
    (env.idOf name = some id →
      e.animations.find? (fun b => b.property_id = id) = some a →
      (e.AddAnimationKey env name target duration tween).1 = true ∧
      ((e.AddAnimationKey env name target duration
          tween).2.animations.find? (fun b => b.property_id = id)) =
        some { a with keys :=
          a.keys ++ [⟨a.duration + duration, target, tween⟩] } ∧
      ElementAnimation.duration
          { a with keys :=
              a.keys ++ [⟨a.duration + duration, target, tween⟩] } =
        a.duration + duration) := by
  refine ⟨fun h =>
      AddAnimationKey_eq_of_unknown env e name target duration tween h,
    fun hid hf =>
      AddAnimationKey_eq_of_no_entry env e name target duration tween id
        hid hf,
    fun hid hf => ?_⟩
  have hpid : a.property_id = id := by
    have := List.find?_some hf
    simpa using this
  have hany : (e.animations.any fun b => b.property_id = id) = true :=
    List.any_eq_true.mpr ⟨a, List.mem_of_find?_eq_some hf, by simp [hpid]⟩
  rw [AddAnimationKey_eq_of_entry env e name target duration tween id a
      hid hf,
    AddAnimationKeyTime_eq_of_any e id target (a.duration + duration)
      tween hany]
  refine ⟨rfl, ?_, ?_⟩
  · show ((e.animations.map (addKeyToAnimation id
        ⟨a.duration + duration, target, tween⟩)).find?
      (fun b => b.property_id = id)) = _
    rw [find_pid_map_addKey, hf]
    rfl
  · simp [ElementAnimation.duration, List.getLast?_concat]

/-- Witness for C4 on the concrete element: `height` has no active
animation (silent no-op, false), `width` has one (key appended,
duration extended, true). -/
theorem add_animation_key_extends_witness :
    (sampleElem.AddAnimationKey testEnv "height" ⟨3, .px⟩ 1 {} =
      (false, sampleElem)) ∧
    ((sampleElem.AddAnimationKey testEnv "width" ⟨3, .px⟩ 1 {}).1 = true ∧
      ((sampleElem.AddAnimationKey testEnv "width" ⟨3, .px⟩ 1
          {}).2.animations.find? (fun b => b.property_id = 0)) =
        some { sampleAnimEntry with keys := sampleAnimEntry.keys ++
          [⟨sampleAnimEntry.duration + 1, ⟨3, .px⟩, {}⟩] } ∧
      ElementAnimation.duration
          { sampleAnimEntry with keys := sampleAnimEntry.keys ++
            [⟨sampleAnimEntry.duration + 1, ⟨3, .px⟩, {}⟩] } =
        sampleAnimEntry.duration + 1) :=
  ⟨(add_animation_key_extends testEnv sampleElem "height" ⟨3, .px⟩ 1 {} 1
      sampleAnimEntry).2.1 (by decide) (by decide),
   (add_animation_key_extends testEnv sampleElem "width" ⟨3, .px⟩ 1 {} 0
      sampleAnimEntry).2.2 (by decide) (by decide)⟩

/-! ## Store lookup and update lemmas -/

/-- Lookup after an update: the updated id reads through the update,
every other id is untouched. -/
theorem getE_setE (f : Forest) (i : ElemId) (g : Element → Element)
    (j : ElemId) :
    getE (setE f i g) j =
      if j = i then (getE f i).map g else getE f j := by
  induction f with
  | nil =>
    simp only [setE, List.map_nil, getE]
    split <;> rfl
  | cons pr t ih =>
    obtain ⟨k, e⟩ := pr
    by_cases hk : k = i
    · subst hk
      have hhead : setE ((k, e) :: t) k g = (k, g e) :: setE t k g := by
        simp [setE]
      rw [hhead]
      by_cases hj : j = k
      · subst hj
        simp [getE]
      · simp [getE, hj, ih]
    · have hhead : setE ((k, e) :: t) i g = (k, e) :: setE t i g := by
        simp [setE, hk]
      rw [hhead]
      by_cases hj : j = k
      · subst hj
        simp [getE, hk]
      · simp [getE, hj, Ne.symm hk, ih]

/-- Updates do not change the set of ids in the store. -/
theorem keys_setE (f : Forest) (i : ElemId) (g : Element → Element) :
    keys (setE f i g) = keys f := by
  induction f with
  | nil => rfl
  | cons pr t ih =>
    simp only [setE, keys, List.map_cons] at *
    split <;> simp_all

/-- An id is found in the store exactly when it is among the keys. -/
theorem getE_isSome_iff (f : Forest) (j : ElemId) :
    (getE f j).isSome = true ↔ j ∈ keys f := by
  induction f with
  | nil => simp [getE, keys]
  | cons pr t ih =>
    obtain ⟨k, e⟩ := pr
    by_cases hj : j = k <;> simp [getE, keys, hj, ih]

/-- Composite lookup after the two updates every mutation performs:
one on the parent, one on the child. -/
theorem getE_set2 (f : Forest) (p c : ElemId) (gP gC : Element → Element)
    (hcp : c ≠ p) (j : ElemId) :
    getE (setE (setE f p gP) c gC) j =
      if j = c then (getE f c).map gC
      else if j = p then (getE f p).map gP
      else getE f j := by
  simp only [getE_setE]
  by_cases hj : j = c
  · subst hj
    simp [hcp]
  · simp [hj]

/-! ## List block lemmas -/

/-- Positional insertion is a permutation of consing. -/
theorem insertAt_perm (l : List ElemId) (k : Nat) (c : ElemId) :
    List.Perm (insertAt l k c) (c :: l) := by
  unfold insertAt
  have h : List.Perm (l.take k ++ c :: l.drop k)
      (c :: (l.take k ++ l.drop k)) := List.perm_middle
  rw [List.take_append_drop] at h
  exact h

/-- Membership in a positional insertion. -/
theorem mem_insertAt (l : List ElemId) (k : Nat) (c x : ElemId) :
    x ∈ insertAt l k c ↔ x = c ∨ x ∈ l := by
  rw [(insertAt_perm l k c).mem_iff]
  simp

/-- Positional insertion of a fresh id keeps the list
duplicate-free. -/
theorem nodup_insertAt (l : List ElemId) (k : Nat) (c : ElemId)
    (hc : c ∉ l) (hl : l.Nodup) : (insertAt l k c).Nodup :=
  ((insertAt_perm l k c).nodup_iff).mpr (List.nodup_cons.mpr ⟨hc, hl⟩)

/-- Length of a positional insertion. -/
theorem length_insertAt (l : List ElemId) (k : Nat) (c : ElemId) :
    (insertAt l k c).length = l.length + 1 := by
  rw [(insertAt_perm l k c).length_eq]
  rfl

/-- The first k+1 elements after inserting at position k. -/
theorem take_insertAt (l : List ElemId) (k : Nat) (c : ElemId)
    (h : k ≤ l.length) :
    (insertAt l k c).take (k + 1) = l.take k ++ [c] := by
  unfold insertAt
  rw [List.take_append_eq_append_take, List.take_take,
    Nat.min_eq_right (Nat.le_succ k), List.length_take,
    Nat.min_eq_left h]
  have h1 : k + 1 - k = 1 := by omega
  rw [h1]
  simp

/-- The elements after position k+1 after inserting at position k. -/
theorem drop_insertAt (l : List ElemId) (k : Nat) (c : ElemId)
    (h : k ≤ l.length) :
    (insertAt l k c).drop (k + 1) = l.drop k := by
  unfold insertAt
  rw [List.drop_append_eq_append_drop, List.length_take,
    Nat.min_eq_left h]
  have h1 : k + 1 - k = 1 := by omega
  rw [List.drop_eq_nil_of_le, h1]
  · simp
  · rw [List.length_take, Nat.min_eq_left h]
    omega

/-- Taking up to the length of the left part of an append. -/
theorem take_append_left_of_le (l1 l2 : List ElemId) (k : Nat)
    (h : k ≤ l1.length) : (l1 ++ l2).take k = l1.take k := by
  rw [List.take_append_eq_append_take, Nat.sub_eq_zero_of_le h]
  simp

/-- Dropping up to the length of the left part of an append. -/
theorem drop_append_left_of_le (l1 l2 : List ElemId) (k : Nat)
    (h : k ≤ l1.length) : (l1 ++ l2).drop k = l1.drop k ++ l2 := by
  rw [List.drop_append_eq_append_drop, Nat.sub_eq_zero_of_le h]
  simp

/-- When the left part of an append contains an element refuting the
predicate, takeWhile and dropWhile stop within that left part. -/
theorem takeWhile_append_of_mem_false (p : ElemId → Bool)
    (l1 l2 : List ElemId) (h : ∃ x ∈ l1, p x = false) :
    (l1 ++ l2).takeWhile p = l1.takeWhile p ∧
    (l1 ++ l2).dropWhile p = l1.dropWhile p ++ l2 := by
  induction l1 with
  | nil =>
    rcases h with ⟨x, hx, -⟩
    cases hx
  | cons a t ih =>
    cases hpa : p a with
    | false => simp [List.takeWhile_cons, List.dropWhile_cons, hpa]
    | true =>
      have h2 : ∃ x ∈ t, p x = false := by
        rcases h with ⟨x, hx, hpx⟩
        rcases List.mem_cons.mp hx with rfl | hxt
        · rw [hpa] at hpx
          cases hpx
        · exact ⟨x, hxt, hpx⟩
      have h3 := ih h2
      simp [List.takeWhile_cons, List.dropWhile_cons, hpa, h3.1, h3.2]

/-- When the predicate holds on all of the left part of an append,
takeWhile and dropWhile pass over it. -/
theorem takeWhile_append_of_forall_true (p : ElemId → Bool)
    (l1 l2 : List ElemId) (h : ∀ x ∈ l1, p x = true) :
    (l1 ++ l2).takeWhile p = l1 ++ l2.takeWhile p ∧
    (l1 ++ l2).dropWhile p = l2.dropWhile p := by
  induction l1 with
  | nil => simp
  | cons a t ih =>
    have hpa : p a = true := h a (List.mem_cons_self a t)
    have h3 := ih (fun x hx => h x (List.mem_cons_of_mem a hx))
    simp [List.takeWhile_cons, List.dropWhile_cons, hpa, h3.1, h3.2]

/-- Splitting a list at the first occurrence of a member: the prefix
not containing it, the member, and the rest. -/
theorem takeWhile_dropWhile_split (l : List ElemId) (a : ElemId)
    (h : a ∈ l) :
    l.takeWhile (fun x => x ≠ a) ++
      a :: (l.dropWhile (fun x => x ≠ a)).tail = l ∧
    l.dropWhile (fun x => x ≠ a) =
      a :: (l.dropWhile (fun x => x ≠ a)).tail := by
  induction l with
  | nil => cases h
  | cons b t ih =>
    by_cases hb : b = a
    · subst hb
      simp [List.takeWhile_cons, List.dropWhile_cons]
    · have h2 : a ∈ t := by
        rcases List.mem_cons.mp h with h3 | h3
        · exact absurd h3.symm hb
        · exact h3
      have h3 := ih h2
      have hred : (b :: t).dropWhile (fun x => x ≠ a) =
          t.dropWhile (fun x => x ≠ a) := by
        simp [List.dropWhile_cons, hb]
      have hredT : (b :: t).takeWhile (fun x => x ≠ a) =
          b :: t.takeWhile (fun x => x ≠ a) := by
        simp [List.takeWhile_cons, hb]
      refine ⟨?_, ?_⟩
      · rw [hredT, hred, List.cons_append, h3.1]
      · rw [hred]
        exact h3.2

/-! ## Facts derived from tree consistency -/

/-- The DOM and non-DOM blocks together are the child list. -/
theorem childrenOf_split (f : Forest) (q : ElemId) :
    domChildren f q ++ nonDomChildren f q = childrenOf f q :=
  List.take_append_drop _ _

/-- Every element of a consistent store satisfies `nodeOk`, also the
absent ids (vacuously). -/
theorem nodeOk_of_WF (f : Forest) (h : WF f) (q : ElemId) : nodeOk f q := by
  by_cases hq : q ∈ keys f
  · exact h.2 q hq
  · have hget : getE f q = none := by
      cases hg : getE f q with
      | none => rfl
      | some e =>
        exact absurd ((getE_isSome_iff f q).mp (by rw [hg]; rfl)) hq
    unfold nodeOk domChildren nonDomChildren childrenOf numNonDomOf parentOf
    rw [hget]
    simp [optionHolds]

/-- In a consistent store, membership in a child list determines the
parent reference. -/
theorem WF_parent_of_mem (f : Forest) (h : WF f) (x q : ElemId)
    (hx : x ∈ childrenOf f q) : parentOf f x = some q := by
  obtain ⟨-, -, hdomb, hnondomb, -⟩ := nodeOk_of_WF f h q
  rw [← childrenOf_split f q] at hx
  rcases List.mem_append.mp hx with h1 | h1
  · exact (hdomb x h1).1
  · exact (hnondomb x h1).1

/-- In a consistent store, members of the DOM block carry the DOM
flag. -/
theorem WF_dom_of_mem_dom (f : Forest) (h : WF f) (x q : ElemId)
    (hx : x ∈ domChildren f q) : domOf f x = some true :=
  ((nodeOk_of_WF f h q).2.2.1 x hx).2

/-- In a consistent store, members of the non-DOM block do not carry
the DOM flag. -/
theorem WF_dom_of_mem_nonDom (f : Forest) (h : WF f) (x q : ElemId)
    (hx : x ∈ nonDomChildren f q) : domOf f x = some false :=
  ((nodeOk_of_WF f h q).2.2.2.1 x hx).2

/-- In a consistent store, a parentless element sits in no child
list. -/
theorem WF_not_child_of_parent_none (f : Forest) (h : WF f) (c : ElemId)
    (ec : Element) (hc : getE f c = some ec) (hpar : ec.parent = none)
    (q : ElemId) : c ∉ childrenOf f q := by
  intro hm
  have h2 := WF_parent_of_mem f h c q hm
  unfold parentOf at h2
  rw [hc] at h2
  simp [hpar] at h2

/-- In a consistent store, an element sits in at most one child
list. -/
theorem WF_child_unique (f : Forest) (h : WF f) (x q1 q2 : ElemId)
    (h1 : x ∈ childrenOf f q1) (h2 : x ∈ childrenOf f q2) : q1 = q2 := by
  have ha := WF_parent_of_mem f h x q1 h1
  have hb := WF_parent_of_mem f h x q2 h2
  rw [ha] at hb
  exact Option.some_injective _ hb

/-! ## Unfoldings of the tree operations -/

/-- Unfolding of `AppendChild` when the guards hold. -/
theorem AppendChild_eq_of_guard (f : Forest) (p c : ElemId) (d : Bool)
    (ep ec : Element) (hp : getE f p = some ep) (hc : getE f c = some ec)
    (hpar : ec.parent = none) (hne : c ≠ p) :
    AppendChild f p c d =
      setE (setE f p (fun e =>
        if d then
          { e with
            children := insertAt e.children
              (e.children.length - e.num_non_dom_children) c }
        else
          { e with
            children := e.children ++ [c]
            num_non_dom_children := e.num_non_dom_children + 1 }))
        c (fun e => { e with parent := some p, dom := d }) := by
  unfold AppendChild
  rw [hp, hc]
  exact if_pos ⟨hpar, hne⟩

/-- `AppendChild` on an absent target is a no-op. -/
theorem AppendChild_eq_noop_no_p (f : Forest) (p c : ElemId) (d : Bool)
    (hp : getE f p = none) : AppendChild f p c d = f := by
  unfold AppendChild
  rw [hp]

/-- `AppendChild` of an absent element is a no-op. -/
theorem AppendChild_eq_noop_no_c (f : Forest) (p c : ElemId) (d : Bool)
    (ep : Element) (hp : getE f p = some ep) (hc : getE f c = none) :
    AppendChild f p c d = f := by
  unfold AppendChild
  rw [hp, hc]

/-- `AppendChild` against the handover discipline is a no-op. -/
theorem AppendChild_eq_noop_guard (f : Forest) (p c : ElemId) (d : Bool)
    (ep ec : Element) (hp : getE f p = some ep) (hc : getE f c = some ec)
    (hg : ¬(ec.parent = none ∧ c ≠ p)) : AppendChild f p c d = f := by
  unfold AppendChild
  rw [hp, hc]
  exact if_neg hg

/-- `AppendChild` does not change the set of ids. -/
theorem keys_AppendChild (f : Forest) (p c : ElemId) (d : Bool) :
    keys (AppendChild f p c d) = keys f := by
  cases hp : getE f p with
  | none => rw [AppendChild_eq_noop_no_p f p c d hp]
  | some ep =>
    cases hc : getE f c with
    | none => rw [AppendChild_eq_noop_no_c f p c d ep hp hc]
    | some ec =>
      by_cases hg : ec.parent = none ∧ c ≠ p
      · rw [AppendChild_eq_of_guard f p c d ep ec hp hc hg.1 hg.2,
          keys_setE, keys_setE]
      · rw [AppendChild_eq_noop_guard f p c d ep ec hp hc hg]

/-- Lookup profile of `AppendChild` under its guards. -/
theorem AppendChild_getE (f : Forest) (p c : ElemId) (d : Bool)
    (ep ec : Element) (hp : getE f p = some ep) (hc : getE f c = some ec)
    (hpar : ec.parent = none) (hne : c ≠ p) (j : ElemId) :
    getE (AppendChild f p c d) j =
      if j = c then some { ec with parent := some p, dom := d }
      else if j = p then some (if d then
          { ep with
            children := insertAt ep.children
              (ep.children.length - ep.num_non_dom_children) c }
        else
          { ep with
            children := ep.children ++ [c]
            num_non_dom_children := ep.num_non_dom_children + 1 })
      else getE f j := by
  rw [AppendChild_eq_of_guard f p c d ep ec hp hc hpar hne,
    getE_set2 _ _ _ _ _ hne]
  by_cases hj : j = c
  · simp [hj, hc]
  · by_cases hj2 : j = p
    · subst hj2
      simp [hj, hp]
    · simp [hj, hj2]

/-- Unfolding of `InsertBefore` when the guards hold. -/
theorem InsertBefore_eq_of_guard (f : Forest) (p c adj : ElemId)
    (ep ec : Element) (hp : getE f p = some ep) (hc : getE f c = some ec)
    (hpar : ec.parent = none) (hne : c ≠ p) (hadj : adj ∈ ep.children) :
    InsertBefore f p c adj =
      setE (setE f p (fun e =>
        { e with
          children := (e.children.takeWhile (fun x => x ≠ adj)) ++
            c :: (e.children.dropWhile (fun x => x ≠ adj))
          num_non_dom_children :=
            if adj ∈ ep.children.take
                (ep.children.length - ep.num_non_dom_children) then
              e.num_non_dom_children
            else e.num_non_dom_children + 1 }))
        c (fun e => { e with
          parent := some p
          dom := decide (adj ∈ ep.children.take
            (ep.children.length - ep.num_non_dom_children)) }) := by
  unfold InsertBefore
  rw [hp, hc]
  exact if_pos ⟨hpar, hne, hadj⟩

/-- `InsertBefore` on an absent target is a no-op. -/
theorem InsertBefore_eq_noop_no_p (f : Forest) (p c adj : ElemId)
    (hp : getE f p = none) : InsertBefore f p c adj = f := by
  unfold InsertBefore
  rw [hp]

/-- `InsertBefore` of an absent element is a no-op. -/
theorem InsertBefore_eq_noop_no_c (f : Forest) (p c adj : ElemId)
    (ep : Element) (hp : getE f p = some ep) (hc : getE f c = none) :
    InsertBefore f p c adj = f := by
  unfold InsertBefore
  rw [hp, hc]

/-- `InsertBefore` against its guards is a no-op. -/
theorem InsertBefore_eq_noop_guard (f : Forest) (p c adj : ElemId)
    (ep ec : Element) (hp : getE f p = some ep) (hc : getE f c = some ec)
    (hg : ¬(ec.parent = none ∧ c ≠ p ∧ adj ∈ ep.children)) :
    InsertBefore f p c adj = f := by
  unfold InsertBefore
  rw [hp, hc]
  exact if_neg hg

/-- `InsertBefore` does not change the set of ids. -/
theorem keys_InsertBefore (f : Forest) (p c adj : ElemId) :
    keys (InsertBefore f p c adj) = keys f := by
  cases hp : getE f p with
  | none => rw [InsertBefore_eq_noop_no_p f p c adj hp]
  | some ep =>
    cases hc : getE f c with
    | none => rw [InsertBefore_eq_noop_no_c f p c adj ep hp hc]
    | some ec =>
      by_cases hg : ec.parent = none ∧ c ≠ p ∧ adj ∈ ep.children
      · rw [InsertBefore_eq_of_guard f p c adj ep ec hp hc hg.1 hg.2.1
          hg.2.2, keys_setE, keys_setE]
      · rw [InsertBefore_eq_noop_guard f p c adj ep ec hp hc hg]

/-- Lookup profile of `InsertBefore` under its guards. -/
theorem InsertBefore_getE (f : Forest) (p c adj : ElemId)
    (ep ec : Element) (hp : getE f p = some ep) (hc : getE f c = some ec)
    (hpar : ec.parent = none) (hne : c ≠ p) (hadj : adj ∈ ep.children)
    (j : ElemId) :
    getE (InsertBefore f p c adj) j =
      if j = c then some { ec with
          parent := some p
          dom := decide (adj ∈ ep.children.take
            (ep.children.length - ep.num_non_dom_children)) }
      else if j = p then some { ep with
          children := (ep.children.takeWhile (fun x => x ≠ adj)) ++
            c :: (ep.children.dropWhile (fun x => x ≠ adj))
          num_non_dom_children :=
            if adj ∈ ep.children.take
                (ep.children.length - ep.num_non_dom_children) then
              ep.num_non_dom_children
            else ep.num_non_dom_children + 1 }
      else getE f j := by
  rw [InsertBefore_eq_of_guard f p c adj ep ec hp hc hpar hne hadj,
    getE_set2 _ _ _ _ _ hne]
  by_cases hj : j = c
  · simp [hj, hc]
  · by_cases hj2 : j = p
    · subst hj2
      simp [hj, hp]
    · simp [hj, hj2]

/-- Unfolding of `RemoveChild` when the child is found. -/
theorem RemoveChild_eq_of_guard (f : Forest) (p c : ElemId) (ep : Element)
    (hp : getE f p = some ep) (hcm : c ∈ ep.children) (hne : c ≠ p) :
    RemoveChild f p c =
      (some c,
        setE (setE f p (fun e =>
          { e with
            children := e.children.erase c
            num_non_dom_children :=
              if c ∈ ep.children.take
                  (ep.children.length - ep.num_non_dom_children) then
                e.num_non_dom_children
              else e.num_non_dom_children - 1 }))
          c (fun e => { e with parent := none })) := by
  unfold RemoveChild
  rw [hp]
  exact if_pos ⟨hcm, hne⟩

/-- `RemoveChild` on an absent target is a no-op. -/
theorem RemoveChild_eq_noop_no_p (f : Forest) (p c : ElemId)
    (hp : getE f p = none) : RemoveChild f p c = (none, f) := by
  unfold RemoveChild
  rw [hp]

/-- `RemoveChild` of a non-child is a no-op returning nothing. -/
theorem RemoveChild_eq_noop_guard (f : Forest) (p c : ElemId) (ep : Element)
    (hp : getE f p = some ep) (hg : ¬(c ∈ ep.children ∧ c ≠ p)) :
    RemoveChild f p c = (none, f) := by
  unfold RemoveChild
  rw [hp]
  exact if_neg hg

/-- `RemoveChild` does not change the set of ids. -/
theorem keys_RemoveChild (f : Forest) (p c : ElemId) :
    keys (RemoveChild f p c).2 = keys f := by
  cases hp : getE f p with
  | none => rw [RemoveChild_eq_noop_no_p f p c hp]
  | some ep =>
    by_cases hg : c ∈ ep.children ∧ c ≠ p
    · rw [RemoveChild_eq_of_guard f p c ep hp hg.1 hg.2]
      dsimp only
      rw [keys_setE, keys_setE]
    · rw [RemoveChild_eq_noop_guard f p c ep hp hg]

/-- Lookup profile of `RemoveChild` under its guards. -/
theorem RemoveChild_getE (f : Forest) (p c : ElemId) (ep ec : Element)
    (hp : getE f p = some ep) (hc : getE f c = some ec)
    (hcm : c ∈ ep.children) (hne : c ≠ p) (j : ElemId) :
    getE (RemoveChild f p c).2 j =
      if j = c then some { ec with parent := none }
      else if j = p then some { ep with
          children := ep.children.erase c
          num_non_dom_children :=
            if c ∈ ep.children.take
                (ep.children.length - ep.num_non_dom_children) then
              ep.num_non_dom_children
            else ep.num_non_dom_children - 1 }
      else getE f j := by
  rw [RemoveChild_eq_of_guard f p c ep hp hcm hne]
  dsimp only
  rw [getE_set2 _ _ _ _ _ hne]
  by_cases hj : j = c
  · simp [hj, hc]
  · by_cases hj2 : j = p
    · subst hj2
      simp [hj, hp]
    · simp [hj, hj2]

/-- Unfolding of `ReplaceChild` when the replaced element is found. -/
theorem ReplaceChild_eq_found (f : Forest) (p ins rep : ElemId)
    (ep : Element) (hp : getE f p = some ep) (hrep : rep ∈ ep.children) :
    ReplaceChild f p ins rep =
      RemoveChild (InsertBefore f p ins rep) p rep := by
  unfold ReplaceChild
  rw [hp]
  exact if_pos hrep

/-- Unfolding of `ReplaceChild` when the replaced element is not
found: fall back to appending. -/
theorem ReplaceChild_eq_notfound (f : Forest) (p ins rep : ElemId)
    (ep : Element) (hp : getE f p = some ep) (hrep : rep ∉ ep.children) :
    ReplaceChild f p ins rep = (none, AppendChild f p ins true) := by
  unfold ReplaceChild
  rw [hp]
  exact if_neg hrep

/-- `ReplaceChild` on an absent target is a no-op. -/
theorem ReplaceChild_eq_no_p (f : Forest) (p ins rep : ElemId)
    (hp : getE f p = none) : ReplaceChild f p ins rep = (none, f) := by
  unfold ReplaceChild
  rw [hp]

/-! ## Preservation of tree consistency -/

/-- The workhorse: a store transformation that rewires one child `c`
under one parent `p` — new child list `NEW` and non-DOM counter `NND`
at `p`, new parent reference `pc` and DOM flag at `c`, everything else
untouched — preserves consistency, provided the new child list is
duplicate-free, splits into correct DOM and non-DOM blocks, the moved
child's back-reference matches, the child sat in no other list, and no
other membership in `p`'s list was lost. -/
theorem WF_update (f f2 : Forest) (p c : ElemId) (pc : Option ElemId)
    (dc : Option Bool) (NEW : List ElemId) (NND : Nat)
    (h : WF f) (hne : c ≠ p)
    (hkeys : keys f2 = keys f)
    (hpar2 : ∀ j, parentOf f2 j = if j = c then pc else parentOf f j)
    (hdom2 : ∀ j, domOf f2 j = if j = c then dc else domOf f j)
    (hch2 : ∀ j, childrenOf f2 j = if j = p then NEW else childrenOf f j)
    (hnnd2 : ∀ j, numNonDomOf f2 j =
      if j = p then NND else numNonDomOf f j)
    (hnodup : NEW.Nodup) (hle : NND ≤ NEW.length)
    (hdomblk : ∀ x ∈ NEW.take (NEW.length - NND),
      parentOf f2 x = some p ∧ domOf f2 x = some true)
    (hnondomblk : ∀ x ∈ NEW.drop (NEW.length - NND),
      parentOf f2 x = some p ∧ domOf f2 x = some false)
    (hcback : optionHolds pc (fun q => c ∈ childrenOf f2 q))
    (hcnot : ∀ q, q ≠ p → c ∉ childrenOf f q)
    (hmemNEW : ∀ x, x ≠ c → x ∈ childrenOf f p → x ∈ NEW) :
    WF f2 := by
  constructor
  · rw [hkeys]
    exact h.1
  · intro i hi
    obtain ⟨hnd_i, hle_i, hdomb_i, hnondomb_i, hback_i⟩ := nodeOk_of_WF f h i
    refine ⟨?_, ?_, ?_, ?_, ?_⟩
    · rw [hch2 i]
      by_cases hip : i = p
      · rw [if_pos hip]
        exact hnodup
      · rw [if_neg hip]
        exact hnd_i
    · rw [hch2 i, hnnd2 i]
      by_cases hip : i = p
      · rw [if_pos hip, if_pos hip]
        exact hle
      · rw [if_neg hip, if_neg hip]
        exact hle_i
    · intro x hx
      unfold domChildren at hx
      rw [hch2 i, hnnd2 i] at hx
      by_cases hip : i = p
      · subst hip
        simp only [if_pos] at hx
        exact hdomblk x hx
      · simp only [if_neg hip] at hx
        have hxmem : x ∈ childrenOf f i := List.mem_of_mem_take hx
        have hxc : x ≠ c := by
          intro hxc
          subst hxc
          exact hcnot i (fun he => hip he) hxmem
        refine ⟨?_, ?_⟩
        · rw [hpar2 x, if_neg hxc]
          exact (hdomb_i x hx).1
        · rw [hdom2 x, if_neg hxc]
          exact (hdomb_i x hx).2
    · intro x hx
      unfold nonDomChildren at hx
      rw [hch2 i, hnnd2 i] at hx
      by_cases hip : i = p
      · subst hip
        simp only [if_pos] at hx
        exact hnondomblk x hx
      · simp only [if_neg hip] at hx
        have hxmem : x ∈ childrenOf f i := List.mem_of_mem_drop hx
        have hxc : x ≠ c := by
          intro hxc
          subst hxc
          exact hcnot i (fun he => hip he) hxmem
        refine ⟨?_, ?_⟩
        · rw [hpar2 x, if_neg hxc]
          exact (hnondomb_i x hx).1
        · rw [hdom2 x, if_neg hxc]
          exact (hnondomb_i x hx).2
    · by_cases hic : i = c
      · subst hic
        rw [hpar2 i, if_pos rfl]
        exact hcback
      · rw [hpar2 i, if_neg hic]
        cases hq : parentOf f i with
        | none => trivial
        | some q =>
          show i ∈ childrenOf f2 q
          rw [hq] at hback_i
          have hmem : i ∈ childrenOf f q := hback_i
          rw [hch2 q]
          by_cases hqp : q = p
          · rw [if_pos hqp]
            rw [hqp] at hmem
            exact hmemNEW i hic hmem
          · rw [if_neg hqp]
            exact hmem

/-- Parent references after `AppendChild`. -/
theorem AppendChild_parentOf (f : Forest) (p c : ElemId) (d : Bool)
    (ep ec : Element) (hp : getE f p = some ep) (hc : getE f c = some ec)
    (hpar : ec.parent = none) (hne : c ≠ p) (j : ElemId) :
    parentOf (AppendChild f p c d) j =
      if j = c then some p else parentOf f j := by
  unfold parentOf
  rw [AppendChild_getE f p c d ep ec hp hc hpar hne j]
  by_cases hj : j = c
  · rw [if_pos hj, if_pos hj]
  · by_cases hj2 : j = p
    · subst hj2
      rw [if_neg hj, if_neg hj, if_pos rfl, hp]
      cases d <;> rfl
    · rw [if_neg hj, if_neg hj, if_neg hj2]

/-- DOM flags after `AppendChild`. -/
theorem AppendChild_domOf (f : Forest) (p c : ElemId) (d : Bool)
    (ep ec : Element) (hp : getE f p = some ep) (hc : getE f c = some ec)
    (hpar : ec.parent = none) (hne : c ≠ p) (j : ElemId) :
    domOf (AppendChild f p c d) j =
      if j = c then some d else domOf f j := by
  unfold domOf
  rw [AppendChild_getE f p c d ep ec hp hc hpar hne j]
  by_cases hj : j = c
  · rw [if_pos hj, if_pos hj]
    rfl
  · by_cases hj2 : j = p
    · subst hj2
      rw [if_neg hj, if_neg hj, if_pos rfl, hp]
      cases d <;> rfl
    · rw [if_neg hj, if_neg hj, if_neg hj2]

/-- Child lists after `AppendChild`. -/
theorem AppendChild_childrenOf (f : Forest) (p c : ElemId) (d : Bool)
    (ep ec : Element) (hp : getE f p = some ep) (hc : getE f c = some ec)
    (hpar : ec.parent = none) (hne : c ≠ p) (j : ElemId) :
    childrenOf (AppendChild f p c d) j =
      if j = p then
        (if d then insertAt ep.children
          (ep.children.length - ep.num_non_dom_children) c
        else ep.children ++ [c])
      else childrenOf f j := by
  unfold childrenOf
  rw [AppendChild_getE f p c d ep ec hp hc hpar hne j]
  by_cases hj : j = c
  · subst hj
    rw [if_pos rfl, if_neg hne, hc]
  · by_cases hj2 : j = p
    · subst hj2
      rw [if_neg hj, if_pos rfl, if_pos rfl]
      cases d <;> rfl
    · rw [if_neg hj, if_neg hj2, if_neg hj2]

/-- Non-DOM counters after `AppendChild`. -/
theorem AppendChild_numNonDom (f : Forest) (p c : ElemId) (d : Bool)
    (ep ec : Element) (hp : getE f p = some ep) (hc : getE f c = some ec)
    (hpar : ec.parent = none) (hne : c ≠ p) (j : ElemId) :
    numNonDomOf (AppendChild f p c d) j =
      if j = p then
        (if d then ep.num_non_dom_children
        else ep.num_non_dom_children + 1)
      else numNonDomOf f j := by
  unfold numNonDomOf
  rw [AppendChild_getE f p c d ep ec hp hc hpar hne j]
  by_cases hj : j = c
  · subst hj
    rw [if_pos rfl, if_neg hne, hc]
  · by_cases hj2 : j = p
    · subst hj2
      rw [if_neg hj, if_pos rfl, if_pos rfl]
      cases d <;> rfl
    · rw [if_neg hj, if_neg hj2, if_neg hj2]

/-- Parent references after `InsertBefore`. -/
theorem InsertBefore_parentOf (f : Forest) (p c adj : ElemId)
    (ep ec : Element) (hp : getE f p = some ep) (hc : getE f c = some ec)
    (hpar : ec.parent = none) (hne : c ≠ p) (hadj : adj ∈ ep.children)
    (j : ElemId) :
    parentOf (InsertBefore f p c adj) j =
      if j = c then some p else parentOf f j := by
  unfold parentOf
  rw [InsertBefore_getE f p c adj ep ec hp hc hpar hne hadj j]
  by_cases hj : j = c
  · rw [if_pos hj, if_pos hj]
  · by_cases hj2 : j = p
    · subst hj2
      rw [if_neg hj, if_neg hj, if_pos rfl, hp]
    · rw [if_neg hj, if_neg hj, if_neg hj2]

/-- DOM flags after `InsertBefore`: the new child inherits the flag
of the adjacent element's block. -/
theorem InsertBefore_domOf (f : Forest) (p c adj : ElemId)
    (ep ec : Element) (hp : getE f p = some ep) (hc : getE f c = some ec)
    (hpar : ec.parent = none) (hne : c ≠ p) (hadj : adj ∈ ep.children)
    (j : ElemId) :
    domOf (InsertBefore f p c adj) j =
      if j = c then some (decide (adj ∈ ep.children.take
        (ep.children.length - ep.num_non_dom_children)))
      else domOf f j := by
  unfold domOf
  rw [InsertBefore_getE f p c adj ep ec hp hc hpar hne hadj j]
  by_cases hj : j = c
  · rw [if_pos hj, if_pos hj]
    rfl
  · by_cases hj2 : j = p
    · subst hj2
      rw [if_neg hj, if_neg hj, if_pos rfl, hp]
      rfl
    · rw [if_neg hj, if_neg hj, if_neg hj2]

/-- Child lists after `InsertBefore`. -/
theorem InsertBefore_childrenOf (f : Forest) (p c adj : ElemId)
    (ep ec : Element) (hp : getE f p = some ep) (hc : getE f c = some ec)
    (hpar : ec.parent = none) (hne : c ≠ p) (hadj : adj ∈ ep.children)
    (j : ElemId) :
    childrenOf (InsertBefore f p c adj) j =
      if j = p then
        (ep.children.takeWhile (fun x => x ≠ adj)) ++
          c :: (ep.children.dropWhile (fun x => x ≠ adj))
      else childrenOf f j := by
  unfold childrenOf
  rw [InsertBefore_getE f p c adj ep ec hp hc hpar hne hadj j]
  by_cases hj : j = c
  · subst hj
    rw [if_pos rfl, if_neg hne, hc]
  · by_cases hj2 : j = p
    · subst hj2
      rw [if_neg hj, if_pos rfl, if_pos rfl]
    · rw [if_neg hj, if_neg hj2, if_neg hj2]

/-- Non-DOM counters after `InsertBefore`. -/
theorem InsertBefore_numNonDom (f : Forest) (p c adj : ElemId)
    (ep ec : Element) (hp : getE f p = some ep) (hc : getE f c = some ec)
    (hpar : ec.parent = none) (hne : c ≠ p) (hadj : adj ∈ ep.children)
    (j : ElemId) :
    numNonDomOf (InsertBefore f p c adj) j =
      if j = p then
        (if adj ∈ ep.children.take
            (ep.children.length - ep.num_non_dom_children) then
          ep.num_non_dom_children
        else ep.num_non_dom_children + 1)
      else numNonDomOf f j := by
  unfold numNonDomOf
  rw [InsertBefore_getE f p c adj ep ec hp hc hpar hne hadj j]
  by_cases hj : j = c
  · subst hj
    rw [if_pos rfl, if_neg hne, hc]
  · by_cases hj2 : j = p
    · subst hj2
      rw [if_neg hj, if_pos rfl, if_pos rfl]
    · rw [if_neg hj, if_neg hj2, if_neg hj2]

/-- Parent references after `RemoveChild`: the removed child becomes
parentless. -/
theorem RemoveChild_parentOf (f : Forest) (p c : ElemId) (ep ec : Element)
    (hp : getE f p = some ep) (hc : getE f c = some ec)
    (hcm : c ∈ ep.children) (hne : c ≠ p) (j : ElemId) :
    parentOf (RemoveChild f p c).2 j =
      if j = c then none else parentOf f j := by
  unfold parentOf
  rw [RemoveChild_getE f p c ep ec hp hc hcm hne j]
  by_cases hj : j = c
  · rw [if_pos hj, if_pos hj]
  · by_cases hj2 : j = p
    · subst hj2
      rw [if_neg hj, if_neg hj, if_pos rfl, hp]
    · rw [if_neg hj, if_neg hj, if_neg hj2]

/-- DOM flags are untouched by `RemoveChild`. -/
theorem RemoveChild_domOf (f : Forest) (p c : ElemId) (ep ec : Element)
    (hp : getE f p = some ep) (hc : getE f c = some ec)
    (hcm : c ∈ ep.children) (hne : c ≠ p) (j : ElemId) :
    domOf (RemoveChild f p c).2 j = domOf f j := by
  unfold domOf
  rw [RemoveChild_getE f p c ep ec hp hc hcm hne j]
  by_cases hj : j = c
  · subst hj
    rw [if_pos rfl, hc]
    rfl
  · by_cases hj2 : j = p
    · subst hj2
      rw [if_neg hj, if_pos rfl, hp]
      rfl
    · rw [if_neg hj, if_neg hj2]

/-- Child lists after `RemoveChild`. -/
theorem RemoveChild_childrenOf (f : Forest) (p c : ElemId)
    (ep ec : Element) (hp : getE f p = some ep) (hc : getE f c = some ec)
    (hcm : c ∈ ep.children) (hne : c ≠ p) (j : ElemId) :
    childrenOf (RemoveChild f p c).2 j =
      if j = p then ep.children.erase c else childrenOf f j := by
  unfold childrenOf
  rw [RemoveChild_getE f p c ep ec hp hc hcm hne j]
  by_cases hj : j = c
  · subst hj
    rw [if_pos rfl, if_neg hne, hc]
  · by_cases hj2 : j = p
    · subst hj2
      rw [if_neg hj, if_pos rfl, if_pos rfl]
    · rw [if_neg hj, if_neg hj2, if_neg hj2]

/-- Non-DOM counters after `RemoveChild`. -/
theorem RemoveChild_numNonDom (f : Forest) (p c : ElemId)
    (ep ec : Element) (hp : getE f p = some ep) (hc : getE f c = some ec)
    (hcm : c ∈ ep.children) (hne : c ≠ p) (j : ElemId) :
    numNonDomOf (RemoveChild f p c).2 j =
      if j = p then
        (if c ∈ ep.children.take
            (ep.children.length - ep.num_non_dom_children) then
          ep.num_non_dom_children
        else ep.num_non_dom_children - 1)
      else numNonDomOf f j := by
  unfold numNonDomOf
  rw [RemoveChild_getE f p c ep ec hp hc hcm hne j]
  by_cases hj : j = c
  · subst hj
    rw [if_pos rfl, if_neg hne, hc]
  · by_cases hj2 : j = p
    · subst hj2
      rw [if_neg hj, if_pos rfl, if_pos rfl]
    · rw [if_neg hj, if_neg hj2, if_neg hj2]

/-- `AppendChild` preserves tree consistency. -/
theorem WF_AppendChild (f : Forest) (p c : ElemId) (d : Bool) (h : WF f) :
    WF (AppendChild f p c d) := by
  cases hp : getE f p with
  | none =>
    rw [AppendChild_eq_noop_no_p f p c d hp]
    exact h
  | some ep =>
    cases hc : getE f c with
    | none =>
      rw [AppendChild_eq_noop_no_c f p c d ep hp hc]
      exact h
    | some ec =>
      by_cases hg : ec.parent = none ∧ c ≠ p
      case neg =>
        rw [AppendChild_eq_noop_guard f p c d ep ec hp hc hg]
        exact h
      case pos =>
      obtain ⟨hpar, hne⟩ := hg
      have hchp : childrenOf f p = ep.children := by
        unfold childrenOf
        rw [hp]
      have hnndp : numNonDomOf f p = ep.num_non_dom_children := by
        unfold numNonDomOf
        rw [hp]
      have hcnotall : ∀ q, c ∉ childrenOf f q :=
        WF_not_child_of_parent_none f h c ec hc hpar
      have hcnotp : c ∉ ep.children := by
        have h2 := hcnotall p
        rw [hchp] at h2
        exact h2
      obtain ⟨hndp, hlep, hdombp, hnondombp, -⟩ := nodeOk_of_WF f h p
      rw [hchp] at hndp
      rw [hchp, hnndp] at hlep
      have hdombp2 : ∀ x ∈ ep.children.take
          (ep.children.length - ep.num_non_dom_children),
          parentOf f x = some p ∧ domOf f x = some true := by
        intro x hx
        apply hdombp x
        show x ∈ (childrenOf f p).take
          ((childrenOf f p).length - numNonDomOf f p)
        rw [hchp, hnndp]
        exact hx
      have hnondombp2 : ∀ x ∈ ep.children.drop
          (ep.children.length - ep.num_non_dom_children),
          parentOf f x = some p ∧ domOf f x = some false := by
        intro x hx
        apply hnondombp x
        show x ∈ (childrenOf f p).drop
          ((childrenOf f p).length - numNonDomOf f p)
        rw [hchp, hnndp]
        exact hx
      have hpar2 := AppendChild_parentOf f p c d ep ec hp hc hpar hne
      have hdom2 := AppendChild_domOf f p c d ep ec hp hc hpar hne
      have hch2 := AppendChild_childrenOf f p c d ep ec hp hc hpar hne
      have hnnd2 := AppendChild_numNonDom f p c d ep ec hp hc hpar hne
      refine WF_update f (AppendChild f p c d) p c (some p) (some d)
        (if d then insertAt ep.children
          (ep.children.length - ep.num_non_dom_children) c
        else ep.children ++ [c])
        (if d then ep.num_non_dom_children
        else ep.num_non_dom_children + 1)
        h hne (keys_AppendChild f p c d) hpar2 hdom2 hch2 hnnd2
        ?_ ?_ ?_ ?_ ?_ ?_ ?_
      · cases d
        · exact ((List.perm_append_singleton c ep.children).nodup_iff).mpr
            (List.nodup_cons.mpr ⟨hcnotp, hndp⟩)
        · exact nodup_insertAt _ _ _ hcnotp hndp
      · cases d
        · simp only [Bool.false_eq_true, if_false, List.length_append,
            List.length_cons, List.length_nil]
          omega
        · simp only [if_true, length_insertAt]
          omega
      · intro x hx
        cases d
        · simp only [Bool.false_eq_true, if_false, List.length_append,
            List.length_cons, List.length_nil] at hx
          have e1 : ep.children.length + 1 - (ep.num_non_dom_children + 1) =
              ep.children.length - ep.num_non_dom_children := by omega
          rw [e1, take_append_left_of_le _ _ _ (by omega)] at hx
          have hxch : x ∈ ep.children := List.mem_of_mem_take hx
          have hxc : x ≠ c := fun he => hcnotp (he ▸ hxch)
          refine ⟨?_, ?_⟩
          · rw [hpar2 x, if_neg hxc]
            exact (hdombp2 x hx).1
          · rw [hdom2 x, if_neg hxc]
            exact (hdombp2 x hx).2
        · simp only [if_true, length_insertAt] at hx
          have e1 : ep.children.length + 1 - ep.num_non_dom_children =
              (ep.children.length - ep.num_non_dom_children) + 1 := by omega
          rw [e1, take_insertAt _ _ _ (by omega)] at hx
          rcases List.mem_append.mp hx with hx1 | hx1
          · have hxch : x ∈ ep.children := List.mem_of_mem_take hx1
            have hxc : x ≠ c := fun he => hcnotp (he ▸ hxch)
            refine ⟨?_, ?_⟩
            · rw [hpar2 x, if_neg hxc]
              exact (hdombp2 x hx1).1
            · rw [hdom2 x, if_neg hxc]
              exact (hdombp2 x hx1).2
          · have hxc : x = c := List.mem_singleton.mp hx1
            subst hxc
            refine ⟨?_, ?_⟩
            · rw [hpar2 x, if_pos rfl]
            · rw [hdom2 x, if_pos rfl]
      · intro x hx
        cases d
        · simp only [Bool.false_eq_true, if_false, List.length_append,
            List.length_cons, List.length_nil] at hx
          have e1 : ep.children.length + 1 - (ep.num_non_dom_children + 1) =
              ep.children.length - ep.num_non_dom_children := by omega
          rw [e1, drop_append_left_of_le _ _ _ (by omega)] at hx
          rcases List.mem_append.mp hx with hx1 | hx1
          · have hxch : x ∈ ep.children := List.mem_of_mem_drop hx1
            have hxc : x ≠ c := fun he => hcnotp (he ▸ hxch)
            refine ⟨?_, ?_⟩
            · rw [hpar2 x, if_neg hxc]
              exact (hnondombp2 x hx1).1
            · rw [hdom2 x, if_neg hxc]
              exact (hnondombp2 x hx1).2
          · have hxc : x = c := List.mem_singleton.mp hx1
            subst hxc
            refine ⟨?_, ?_⟩
            · rw [hpar2 x, if_pos rfl]
            · rw [hdom2 x, if_pos rfl]
        · simp only [if_true, length_insertAt] at hx
          have e1 : ep.children.length + 1 - ep.num_non_dom_children =
              (ep.children.length - ep.num_non_dom_children) + 1 := by omega
          rw [e1, drop_insertAt _ _ _ (by omega)] at hx
          have hxch : x ∈ ep.children := List.mem_of_mem_drop hx
          have hxc : x ≠ c := fun he => hcnotp (he ▸ hxch)
          refine ⟨?_, ?_⟩
          · rw [hpar2 x, if_neg hxc]
            exact (hnondombp2 x hx).1
          · rw [hdom2 x, if_neg hxc]
            exact (hnondombp2 x hx).2
      · show c ∈ childrenOf (AppendChild f p c d) p
        rw [hch2 p, if_pos rfl]
        cases d
        · simp only [Bool.false_eq_true, if_false]
          exact List.mem_append_right _ (List.mem_singleton_self c)
        · simp only [if_true]
          exact (mem_insertAt _ _ _ _).mpr (Or.inl rfl)
      · exact fun q hq => hcnotall q
      · intro x hxc hxp
        rw [hchp] at hxp
        cases d
        · simp only [Bool.false_eq_true, if_false]
          exact List.mem_append_left _ hxp
        · simp only [if_true]
          exact (mem_insertAt _ _ _ _).mpr (Or.inr hxp)

/-- `InsertBefore` preserves tree consistency. -/
theorem WF_InsertBefore (f : Forest) (p c adj : ElemId) (h : WF f) :
    WF (InsertBefore f p c adj) := by
  cases hp : getE f p with
  | none =>
    rw [InsertBefore_eq_noop_no_p f p c adj hp]
    exact h
  | some ep =>
    cases hc : getE f c with
    | none =>
      rw [InsertBefore_eq_noop_no_c f p c adj ep hp hc]
      exact h
    | some ec =>
      by_cases hg : ec.parent = none ∧ c ≠ p ∧ adj ∈ ep.children
      case neg =>
        rw [InsertBefore_eq_noop_guard f p c adj ep ec hp hc hg]
        exact h
      case pos =>
      obtain ⟨hpar, hne, hadj⟩ := hg
      have hchp : childrenOf f p = ep.children := by
        unfold childrenOf
        rw [hp]
      have hnndp : numNonDomOf f p = ep.num_non_dom_children := by
        unfold numNonDomOf
        rw [hp]
      have hcnotall : ∀ q, c ∉ childrenOf f q :=
        WF_not_child_of_parent_none f h c ec hc hpar
      have hcnotp : c ∉ ep.children := by
        have h2 := hcnotall p
        rw [hchp] at h2
        exact h2
      obtain ⟨hndp, hlep, hdombp, hnondombp, -⟩ := nodeOk_of_WF f h p
      rw [hchp] at hndp
      rw [hchp, hnndp] at hlep
      have hdombp2 : ∀ x ∈ ep.children.take
          (ep.children.length - ep.num_non_dom_children),
          parentOf f x = some p ∧ domOf f x = some true := by
        intro x hx
        apply hdombp x
        show x ∈ (childrenOf f p).take
          ((childrenOf f p).length - numNonDomOf f p)
        rw [hchp, hnndp]
        exact hx
      have hnondombp2 : ∀ x ∈ ep.children.drop
          (ep.children.length - ep.num_non_dom_children),
          parentOf f x = some p ∧ domOf f x = some false := by
        intro x hx
        apply hnondombp x
        show x ∈ (childrenOf f p).drop
          ((childrenOf f p).length - numNonDomOf f p)
        rw [hchp, hnndp]
        exact hx
      have hpar2 := InsertBefore_parentOf f p c adj ep ec hp hc hpar hne hadj
      have hdom2 := InsertBefore_domOf f p c adj ep ec hp hc hpar hne hadj
      have hch2 := InsertBefore_childrenOf f p c adj ep ec hp hc hpar hne hadj
      have hnnd2 := InsertBefore_numNonDom f p c adj ep ec hp hc hpar hne hadj
      have hsplit : ep.children.take
          (ep.children.length - ep.num_non_dom_children) ++
          ep.children.drop
            (ep.children.length - ep.num_non_dom_children) =
          ep.children := List.take_append_drop _ _
      have hKlen : (ep.children.take
          (ep.children.length - ep.num_non_dom_children)).length =
          ep.children.length - ep.num_non_dom_children := by
        rw [List.length_take]
        omega
      have hperm : List.Perm
          (ep.children.takeWhile (fun x => x ≠ adj) ++
            c :: ep.children.dropWhile (fun x => x ≠ adj))
          (c :: ep.children) := by
        have h1 : List.Perm
            (ep.children.takeWhile (fun x => x ≠ adj) ++
              c :: ep.children.dropWhile (fun x => x ≠ adj))
            (c :: (ep.children.takeWhile (fun x => x ≠ adj) ++
              ep.children.dropWhile (fun x => x ≠ adj))) := List.perm_middle
        rw [List.takeWhile_append_dropWhile] at h1
        exact h1
      have hNEWlen : (ep.children.takeWhile (fun x => x ≠ adj) ++
          c :: ep.children.dropWhile (fun x => x ≠ adj)).length =
          ep.children.length + 1 := by
        rw [hperm.length_eq]
        rfl
      refine WF_update f (InsertBefore f p c adj) p c (some p)
        (some (decide (adj ∈ ep.children.take
          (ep.children.length - ep.num_non_dom_children))))
        (ep.children.takeWhile (fun x => x ≠ adj) ++
          c :: ep.children.dropWhile (fun x => x ≠ adj))
        (if adj ∈ ep.children.take
            (ep.children.length - ep.num_non_dom_children) then
          ep.num_non_dom_children
        else ep.num_non_dom_children + 1)
        h hne (keys_InsertBefore f p c adj) hpar2 hdom2 hch2 hnnd2
        ?_ ?_ ?_ ?_ ?_ ?_ ?_
      · exact (hperm.nodup_iff).mpr (List.nodup_cons.mpr ⟨hcnotp, hndp⟩)
      · rw [hNEWlen]
        by_cases hadjD : adj ∈ ep.children.take
            (ep.children.length - ep.num_non_dom_children)
        · rw [if_pos hadjD]
          omega
        · rw [if_neg hadjD]
          omega
      · intro x hx
        rw [hNEWlen] at hx
        by_cases hadjD : adj ∈ ep.children.take
            (ep.children.length - ep.num_non_dom_children)
        · -- adjacent sits in the DOM block
          rw [if_pos hadjD] at hx
          have htw := takeWhile_append_of_mem_false (fun x => x ≠ adj)
            (ep.children.take
              (ep.children.length - ep.num_non_dom_children))
            (ep.children.drop
              (ep.children.length - ep.num_non_dom_children))
            ⟨adj, hadjD, by simp⟩
          rw [hsplit] at htw
          have hblock : (ep.children.takeWhile (fun x => x ≠ adj) ++
              c :: ep.children.dropWhile (fun x => x ≠ adj)) =
              ((ep.children.take
                  (ep.children.length -
                    ep.num_non_dom_children)).takeWhile
                  (fun x => x ≠ adj) ++
                c :: (ep.children.take
                  (ep.children.length -
                    ep.num_non_dom_children)).dropWhile
                  (fun x => x ≠ adj)) ++
              ep.children.drop
                (ep.children.length - ep.num_non_dom_children) := by
            rw [htw.1, htw.2, List.append_assoc, List.cons_append]
          have hDlen : ((ep.children.take
              (ep.children.length -
                ep.num_non_dom_children)).takeWhile
              (fun x => x ≠ adj) ++
            c :: (ep.children.take
              (ep.children.length -
                ep.num_non_dom_children)).dropWhile
              (fun x => x ≠ adj)).length =
              (ep.children.length - ep.num_non_dom_children) + 1 := by
            have h2 : List.Perm
                ((ep.children.take
                    (ep.children.length -
                      ep.num_non_dom_children)).takeWhile
                    (fun x => x ≠ adj) ++
                  c :: (ep.children.take
                    (ep.children.length -
                      ep.num_non_dom_children)).dropWhile
                    (fun x => x ≠ adj))
                (c :: ep.children.take
                  (ep.children.length - ep.num_non_dom_children)) := by
              have h3 : List.Perm
                  ((ep.children.take
                      (ep.children.length -
                        ep.num_non_dom_children)).takeWhile
                      (fun x => x ≠ adj) ++
                    c :: (ep.children.take
                      (ep.children.length -
                        ep.num_non_dom_children)).dropWhile
                      (fun x => x ≠ adj))
                  (c :: ((ep.children.take
                      (ep.children.length -
                        ep.num_non_dom_children)).takeWhile
                      (fun x => x ≠ adj) ++
                    (ep.children.take
                      (ep.children.length -
                        ep.num_non_dom_children)).dropWhile
                      (fun x => x ≠ adj))) := List.perm_middle
              rw [List.takeWhile_append_dropWhile] at h3
              exact h3
            rw [h2.length_eq, List.length_cons, hKlen]
          have e1 : ep.children.length + 1 - ep.num_non_dom_children =
              (ep.children.length - ep.num_non_dom_children) + 1 := by
            omega
          rw [e1, hblock, take_append_left_of_le _ _ _ (by omega),
            List.take_of_length_le (by omega)] at hx
          rcases List.mem_append.mp hx with hx1 | hx1
          · have hxD : x ∈ ep.children.take
                (ep.children.length - ep.num_non_dom_children) :=
              (List.takeWhile_sublist _).subset hx1
            have hxch : x ∈ ep.children := List.mem_of_mem_take hxD
            have hxc : x ≠ c := fun he => hcnotp (he ▸ hxch)
            refine ⟨?_, ?_⟩
            · rw [hpar2 x, if_neg hxc]
              exact (hdombp2 x hxD).1
            · rw [hdom2 x, if_neg hxc]
              exact (hdombp2 x hxD).2
          · rcases List.mem_cons.mp hx1 with hx2 | hx2
            · subst hx2
              refine ⟨?_, ?_⟩
              · rw [hpar2 x, if_pos rfl]
              · rw [hdom2 x, if_pos rfl, decide_eq_true hadjD]
            · have hxD : x ∈ ep.children.take
                  (ep.children.length - ep.num_non_dom_children) :=
                (List.dropWhile_sublist _).subset hx2
              have hxch : x ∈ ep.children := List.mem_of_mem_take hxD
              have hxc : x ≠ c := fun he => hcnotp (he ▸ hxch)
              refine ⟨?_, ?_⟩
              · rw [hpar2 x, if_neg hxc]
                exact (hdombp2 x hxD).1
              · rw [hdom2 x, if_neg hxc]
                exact (hdombp2 x hxD).2
        · -- adjacent sits in the non-DOM block
          rw [if_neg hadjD] at hx
          have hall : ∀ y ∈ ep.children.take
              (ep.children.length - ep.num_non_dom_children),
              (fun x => decide (x ≠ adj)) y = true := by
            intro y hy
            simp only [decide_eq_true_eq]
            intro he
            exact hadjD (he ▸ hy)
          have htw := takeWhile_append_of_forall_true (fun x => x ≠ adj)
            (ep.children.take
              (ep.children.length - ep.num_non_dom_children))
            (ep.children.drop
              (ep.children.length - ep.num_non_dom_children)) hall
          rw [hsplit] at htw
          have hblock : (ep.children.takeWhile (fun x => x ≠ adj) ++
              c :: ep.children.dropWhile (fun x => x ≠ adj)) =
              ep.children.take
                (ep.children.length - ep.num_non_dom_children) ++
              ((ep.children.drop
                  (ep.children.length -
                    ep.num_non_dom_children)).takeWhile
                  (fun x => x ≠ adj) ++
                c :: (ep.children.drop
                  (ep.children.length -
                    ep.num_non_dom_children)).dropWhile
                  (fun x => x ≠ adj)) := by
            rw [htw.1, htw.2, List.append_assoc]
          have e1 : ep.children.length + 1 -
              (ep.num_non_dom_children + 1) =
              ep.children.length - ep.num_non_dom_children := by
            omega
          rw [e1, hblock, take_append_left_of_le _ _ _ (by omega),
            List.take_of_length_le (by omega)] at hx
          have hxch : x ∈ ep.children := List.mem_of_mem_take hx
          have hxc : x ≠ c := fun he => hcnotp (he ▸ hxch)
          refine ⟨?_, ?_⟩
          · rw [hpar2 x, if_neg hxc]
            exact (hdombp2 x hx).1
          · rw [hdom2 x, if_neg hxc]
            exact (hdombp2 x hx).2
      · intro x hx
        rw [hNEWlen] at hx
        by_cases hadjD : adj ∈ ep.children.take
            (ep.children.length - ep.num_non_dom_children)
        · rw [if_pos hadjD] at hx
          have htw := takeWhile_append_of_mem_false (fun x => x ≠ adj)
            (ep.children.take
              (ep.children.length - ep.num_non_dom_children))
            (ep.children.drop
              (ep.children.length - ep.num_non_dom_children))
            ⟨adj, hadjD, by simp⟩
          rw [hsplit] at htw
          have hblock : (ep.children.takeWhile (fun x => x ≠ adj) ++
              c :: ep.children.dropWhile (fun x => x ≠ adj)) =
              ((ep.children.take
                  (ep.children.length -
                    ep.num_non_dom_children)).takeWhile
                  (fun x => x ≠ adj) ++
                c :: (ep.children.take
                  (ep.children.length -
                    ep.num_non_dom_children)).dropWhile
                  (fun x => x ≠ adj)) ++
              ep.children.drop
                (ep.children.length - ep.num_non_dom_children) := by
            rw [htw.1, htw.2, List.append_assoc, List.cons_append]
          have hDlen : ((ep.children.take
              (ep.children.length -
                ep.num_non_dom_children)).takeWhile
              (fun x => x ≠ adj) ++
            c :: (ep.children.take
              (ep.children.length -
                ep.num_non_dom_children)).dropWhile
              (fun x => x ≠ adj)).length =
              (ep.children.length - ep.num_non_dom_children) + 1 := by
            have h2 : List.Perm
                ((ep.children.take
                    (ep.children.length -
                      ep.num_non_dom_children)).takeWhile
                    (fun x => x ≠ adj) ++
                  c :: (ep.children.take
                    (ep.children.length -
                      ep.num_non_dom_children)).dropWhile
                    (fun x => x ≠ adj))
                (c :: ep.children.take
                  (ep.children.length - ep.num_non_dom_children)) := by
              have h3 : List.Perm
                  ((ep.children.take
                      (ep.children.length -
                        ep.num_non_dom_children)).takeWhile
                      (fun x => x ≠ adj) ++
                    c :: (ep.children.take
                      (ep.children.length -
                        ep.num_non_dom_children)).dropWhile
                      (fun x => x ≠ adj))
                  (c :: ((ep.children.take
                      (ep.children.length -
                        ep.num_non_dom_children)).takeWhile
                      (fun x => x ≠ adj) ++
                    (ep.children.take
                      (ep.children.length -
                        ep.num_non_dom_children)).dropWhile
                      (fun x => x ≠ adj))) := List.perm_middle
              rw [List.takeWhile_append_dropWhile] at h3
              exact h3
            rw [h2.length_eq, List.length_cons, hKlen]
          have e1 : ep.children.length + 1 - ep.num_non_dom_children =
              (ep.children.length - ep.num_non_dom_children) + 1 := by
            omega
          rw [e1, hblock, drop_append_left_of_le _ _ _ (by omega),
            List.drop_eq_nil_of_le (by omega), List.nil_append] at hx
          have hxN : x ∈ ep.children.drop
              (ep.children.length - ep.num_non_dom_children) := hx
          have hxch : x ∈ ep.children := List.mem_of_mem_drop hxN
          have hxc : x ≠ c := fun he => hcnotp (he ▸ hxch)
          refine ⟨?_, ?_⟩
          · rw [hpar2 x, if_neg hxc]
            exact (hnondombp2 x hxN).1
          · rw [hdom2 x, if_neg hxc]
            exact (hnondombp2 x hxN).2
        · rw [if_neg hadjD] at hx
          have hall : ∀ y ∈ ep.children.take
              (ep.children.length - ep.num_non_dom_children),
              (fun x => decide (x ≠ adj)) y = true := by
            intro y hy
            simp only [decide_eq_true_eq]
            intro he
            exact hadjD (he ▸ hy)
          have htw := takeWhile_append_of_forall_true (fun x => x ≠ adj)
            (ep.children.take
              (ep.children.length - ep.num_non_dom_children))
            (ep.children.drop
              (ep.children.length - ep.num_non_dom_children)) hall
          rw [hsplit] at htw
          have hblock : (ep.children.takeWhile (fun x => x ≠ adj) ++
              c :: ep.children.dropWhile (fun x => x ≠ adj)) =
              ep.children.take
                (ep.children.length - ep.num_non_dom_children) ++
              ((ep.children.drop
                  (ep.children.length -
                    ep.num_non_dom_children)).takeWhile
                  (fun x => x ≠ adj) ++
                c :: (ep.children.drop
                  (ep.children.length -
                    ep.num_non_dom_children)).dropWhile
                  (fun x => x ≠ adj)) := by
            rw [htw.1, htw.2, List.append_assoc]
          have e1 : ep.children.length + 1 -
              (ep.num_non_dom_children + 1) =
              ep.children.length - ep.num_non_dom_children := by
            omega
          rw [e1, hblock, drop_append_left_of_le _ _ _ (by omega),
            List.drop_eq_nil_of_le (by omega), List.nil_append] at hx
          rcases List.mem_append.mp hx with hx1 | hx1
          · have hxN : x ∈ ep.children.drop
                (ep.children.length - ep.num_non_dom_children) :=
              (List.takeWhile_sublist _).subset hx1
            have hxch : x ∈ ep.children := List.mem_of_mem_drop hxN
            have hxc : x ≠ c := fun he => hcnotp (he ▸ hxch)
            refine ⟨?_, ?_⟩
            · rw [hpar2 x, if_neg hxc]
              exact (hnondombp2 x hxN).1
            · rw [hdom2 x, if_neg hxc]
              exact (hnondombp2 x hxN).2
          · rcases List.mem_cons.mp hx1 with hx2 | hx2
            · subst hx2
              refine ⟨?_, ?_⟩
              · rw [hpar2 x, if_pos rfl]
              · rw [hdom2 x, if_pos rfl, decide_eq_false hadjD]
            · have hxN : x ∈ ep.children.drop
                  (ep.children.length - ep.num_non_dom_children) :=
                (List.dropWhile_sublist _).subset hx2
              have hxch : x ∈ ep.children := List.mem_of_mem_drop hxN
              have hxc : x ≠ c := fun he => hcnotp (he ▸ hxch)
              refine ⟨?_, ?_⟩
              · rw [hpar2 x, if_neg hxc]
                exact (hnondombp2 x hxN).1
              · rw [hdom2 x, if_neg hxc]
                exact (hnondombp2 x hxN).2
      · show c ∈ childrenOf (InsertBefore f p c adj) p
        rw [hch2 p, if_pos rfl]
        exact List.mem_append_right _ (List.mem_cons_self c _)
      · exact fun q hq => hcnotall q
      · intro x hxc hxp
        rw [hchp] at hxp
        have h2 : x ∈ ep.children.takeWhile (fun y => y ≠ adj) ++
            ep.children.dropWhile (fun y => y ≠ adj) := by
          rw [List.takeWhile_append_dropWhile]
          exact hxp
        rcases List.mem_append.mp h2 with h3 | h3
        · exact List.mem_append_left _ h3
        · exact List.mem_append_right _ (List.mem_cons_of_mem c h3)

/-- `RemoveChild` preserves tree consistency. -/
theorem WF_RemoveChild (f : Forest) (p c : ElemId) (h : WF f) :
    WF (RemoveChild f p c).2 := by
  cases hp : getE f p with
  | none =>
    rw [RemoveChild_eq_noop_no_p f p c hp]
    exact h
  | some ep =>
    by_cases hg : c ∈ ep.children ∧ c ≠ p
    case neg =>
      rw [RemoveChild_eq_noop_guard f p c ep hp hg]
      exact h
    case pos =>
    obtain ⟨hcm, hne⟩ := hg
    have hchp : childrenOf f p = ep.children := by
      unfold childrenOf
      rw [hp]
    have hnndp : numNonDomOf f p = ep.num_non_dom_children := by
      unfold numNonDomOf
      rw [hp]
    have hparc : parentOf f c = some p := by
      apply WF_parent_of_mem f h c p
      rw [hchp]
      exact hcm
    obtain ⟨ec, hc⟩ : ∃ ec, getE f c = some ec := by
      unfold parentOf at hparc
      cases hg2 : getE f c with
      | none =>
        rw [hg2] at hparc
        simp at hparc
      | some e => exact ⟨e, rfl⟩
    obtain ⟨hndp, hlep, hdombp, hnondombp, -⟩ := nodeOk_of_WF f h p
    rw [hchp] at hndp
    rw [hchp, hnndp] at hlep
    have hdombp2 : ∀ x ∈ ep.children.take
        (ep.children.length - ep.num_non_dom_children),
        parentOf f x = some p ∧ domOf f x = some true := by
      intro x hx
      apply hdombp x
      show x ∈ (childrenOf f p).take
        ((childrenOf f p).length - numNonDomOf f p)
      rw [hchp, hnndp]
      exact hx
    have hnondombp2 : ∀ x ∈ ep.children.drop
        (ep.children.length - ep.num_non_dom_children),
        parentOf f x = some p ∧ domOf f x = some false := by
      intro x hx
      apply hnondombp x
      show x ∈ (childrenOf f p).drop
        ((childrenOf f p).length - numNonDomOf f p)
      rw [hchp, hnndp]
      exact hx
    have hpar2 := RemoveChild_parentOf f p c ep ec hp hc hcm hne
    have hdom2 := RemoveChild_domOf f p c ep ec hp hc hcm hne
    have hch2 := RemoveChild_childrenOf f p c ep ec hp hc hcm hne
    have hnnd2 := RemoveChild_numNonDom f p c ep ec hp hc hcm hne
    have hsplit : ep.children.take
        (ep.children.length - ep.num_non_dom_children) ++
        ep.children.drop
          (ep.children.length - ep.num_non_dom_children) =
        ep.children := List.take_append_drop _ _
    have hKlen : (ep.children.take
        (ep.children.length - ep.num_non_dom_children)).length =
        ep.children.length - ep.num_non_dom_children := by
      rw [List.length_take]
      omega
    have hNlen : (ep.children.drop
        (ep.children.length - ep.num_non_dom_children)).length =
        ep.children.length -
          (ep.children.length - ep.num_non_dom_children) := by
      rw [List.length_drop]
    have hndD : (ep.children.take
        (ep.children.length - ep.num_non_dom_children)).Nodup :=
      hndp.sublist (List.take_sublist _ _)
    have hndN : (ep.children.drop
        (ep.children.length - ep.num_non_dom_children)).Nodup :=
      hndp.sublist (List.drop_sublist _ _)
    have hDdisjN : ∀ x, x ∈ ep.children.take
        (ep.children.length - ep.num_non_dom_children) →
        x ∉ ep.children.drop
          (ep.children.length - ep.num_non_dom_children) := by
      have h2 := hndp
      rw [← hsplit] at h2
      intro x hx1 hx2
      exact (List.disjoint_of_nodup_append h2) hx1 hx2
    have hlen_erase : (ep.children.erase c).length =
        ep.children.length - 1 := List.length_erase_of_mem hcm
    refine WF_update f (RemoveChild f p c).2 p c none (domOf f c)
      (ep.children.erase c)
      (if c ∈ ep.children.take
          (ep.children.length - ep.num_non_dom_children) then
        ep.num_non_dom_children
      else ep.num_non_dom_children - 1)
      h hne (keys_RemoveChild f p c) hpar2 ?_ hch2 hnnd2
      ?_ ?_ ?_ ?_ ?_ ?_ ?_
    · intro j
      rw [hdom2 j]
      by_cases hj : j = c
      · rw [if_pos hj, hj]
      · rw [if_neg hj]
    · exact List.Nodup.erase c hndp
    · rw [hlen_erase]
      by_cases hcD : c ∈ ep.children.take
          (ep.children.length - ep.num_non_dom_children)
      · rw [if_pos hcD]
        have hKpos : 0 < (ep.children.take
            (ep.children.length - ep.num_non_dom_children)).length :=
          List.length_pos_of_mem hcD
        omega
      · rw [if_neg hcD]
        omega
    · intro x hx
      rw [hlen_erase] at hx
      by_cases hcD : c ∈ ep.children.take
          (ep.children.length - ep.num_non_dom_children)
      · rw [if_pos hcD] at hx
        have hKpos : 0 < (ep.children.take
            (ep.children.length - ep.num_non_dom_children)).length :=
          List.length_pos_of_mem hcD
        have herase : ep.children.erase c =
            (ep.children.take
              (ep.children.length -
                ep.num_non_dom_children)).erase c ++
            ep.children.drop
              (ep.children.length - ep.num_non_dom_children) := by
          conv_lhs => rw [← hsplit]
          exact List.erase_append_left _ hcD
        have hlenD : ((ep.children.take
            (ep.children.length -
              ep.num_non_dom_children)).erase c).length =
            (ep.children.length - ep.num_non_dom_children) - 1 := by
          rw [List.length_erase_of_mem hcD, hKlen]
        have e1 : ep.children.length - 1 - ep.num_non_dom_children =
            (ep.children.length - ep.num_non_dom_children) - 1 := by
          omega
        rw [e1, herase, take_append_left_of_le _ _ _ (by omega),
          List.take_of_length_le (by omega)] at hx
        have hxD : x ∈ ep.children.take
            (ep.children.length - ep.num_non_dom_children) :=
          List.mem_of_mem_erase hx
        have hxc : x ≠ c := (hndD.mem_erase_iff.mp hx).1
        refine ⟨?_, ?_⟩
        · rw [hpar2 x, if_neg hxc]
          exact (hdombp2 x hxD).1
        · rw [hdom2 x]
          exact (hdombp2 x hxD).2
      · rw [if_neg hcD] at hx
        have hcN : c ∈ ep.children.drop
            (ep.children.length - ep.num_non_dom_children) := by
          have h2 : c ∈ ep.children.take
              (ep.children.length - ep.num_non_dom_children) ++
              ep.children.drop
                (ep.children.length - ep.num_non_dom_children) := by
            rw [hsplit]
            exact hcm
          rcases List.mem_append.mp h2 with h3 | h3
          · exact absurd h3 hcD
          · exact h3
        have hNpos : 0 < (ep.children.drop
            (ep.children.length - ep.num_non_dom_children)).length :=
          List.length_pos_of_mem hcN
        have herase : ep.children.erase c =
            ep.children.take
              (ep.children.length - ep.num_non_dom_children) ++
            (ep.children.drop
              (ep.children.length -
                ep.num_non_dom_children)).erase c := by
          conv_lhs => rw [← hsplit]
          exact List.erase_append_right _ hcD
        have e1 : ep.children.length - 1 -
            (ep.num_non_dom_children - 1) =
            ep.children.length - ep.num_non_dom_children := by
          omega
        rw [e1, herase, take_append_left_of_le _ _ _ (by omega),
          List.take_of_length_le (by omega)] at hx
        have hxch : x ∈ ep.children := List.mem_of_mem_take hx
        have hxc : x ≠ c := by
          intro he
          exact hcD (he ▸ hx)
        refine ⟨?_, ?_⟩
        · rw [hpar2 x, if_neg hxc]
          exact (hdombp2 x hx).1
        · rw [hdom2 x]
          exact (hdombp2 x hx).2
    · intro x hx
      rw [hlen_erase] at hx
      by_cases hcD : c ∈ ep.children.take
          (ep.children.length - ep.num_non_dom_children)
      · rw [if_pos hcD] at hx
        have hKpos : 0 < (ep.children.take
            (ep.children.length - ep.num_non_dom_children)).length :=
          List.length_pos_of_mem hcD
        have herase : ep.children.erase c =
            (ep.children.take
              (ep.children.length -
                ep.num_non_dom_children)).erase c ++
            ep.children.drop
              (ep.children.length - ep.num_non_dom_children) := by
          conv_lhs => rw [← hsplit]
          exact List.erase_append_left _ hcD
        have hlenD : ((ep.children.take
            (ep.children.length -
              ep.num_non_dom_children)).erase c).length =
            (ep.children.length - ep.num_non_dom_children) - 1 := by
          rw [List.length_erase_of_mem hcD, hKlen]
        have e1 : ep.children.length - 1 - ep.num_non_dom_children =
            (ep.children.length - ep.num_non_dom_children) - 1 := by
          omega
        rw [e1, herase, drop_append_left_of_le _ _ _ (by omega),
          List.drop_eq_nil_of_le (by omega), List.nil_append] at hx
        have hxc : x ≠ c := by
          intro he
          exact hDdisjN c hcD (he ▸ hx)
        refine ⟨?_, ?_⟩
        · rw [hpar2 x, if_neg hxc]
          exact (hnondombp2 x hx).1
        · rw [hdom2 x]
          exact (hnondombp2 x hx).2
      · rw [if_neg hcD] at hx
        have hcN : c ∈ ep.children.drop
            (ep.children.length - ep.num_non_dom_children) := by
          have h2 : c ∈ ep.children.take
              (ep.children.length - ep.num_non_dom_children) ++
              ep.children.drop
                (ep.children.length - ep.num_non_dom_children) := by
            rw [hsplit]
            exact hcm
          rcases List.mem_append.mp h2 with h3 | h3
          · exact absurd h3 hcD
          · exact h3
        have hNpos : 0 < (ep.children.drop
            (ep.children.length - ep.num_non_dom_children)).length :=
          List.length_pos_of_mem hcN
        have herase : ep.children.erase c =
            ep.children.take
              (ep.children.length - ep.num_non_dom_children) ++
            (ep.children.drop
              (ep.children.length -
                ep.num_non_dom_children)).erase c := by
          conv_lhs => rw [← hsplit]
          exact List.erase_append_right _ hcD
        have e1 : ep.children.length - 1 -
            (ep.num_non_dom_children - 1) =
            ep.children.length - ep.num_non_dom_children := by
          omega
        rw [e1, herase, drop_append_left_of_le _ _ _ (by omega),
          List.drop_eq_nil_of_le (by omega), List.nil_append] at hx
        have hxN : x ∈ ep.children.drop
            (ep.children.length - ep.num_non_dom_children) :=
          List.mem_of_mem_erase hx
        have hxc : x ≠ c := (hndN.mem_erase_iff.mp hx).1
        refine ⟨?_, ?_⟩
        · rw [hpar2 x, if_neg hxc]
          exact (hnondombp2 x hxN).1
        · rw [hdom2 x]
          exact (hnondombp2 x hxN).2
    · trivial
    · intro q hq hmem
      exact hq (WF_child_unique f h c q p hmem (by rw [hchp]; exact hcm))
    · intro x hxc hxp
      rw [hchp] at hxp
      exact (List.mem_erase_of_ne hxc).mpr hxp

/-- `ReplaceChild` preserves tree consistency. -/
theorem WF_ReplaceChild (f : Forest) (p ins rep : ElemId) (h : WF f) :
    WF (ReplaceChild f p ins rep).2 := by
  cases hp : getE f p with
  | none =>
    rw [ReplaceChild_eq_no_p f p ins rep hp]
    exact h
  | some ep =>
    by_cases hrep : rep ∈ ep.children
    · rw [ReplaceChild_eq_found f p ins rep ep hp hrep]
      exact WF_RemoveChild _ p rep (WF_InsertBefore f p ins rep h)
    · rw [ReplaceChild_eq_notfound f p ins rep ep hp hrep]
      exact WF_AppendChild f p ins true h

/-- Any single tree operation preserves tree consistency. -/
theorem WF_applyTreeOp (f : Forest) (op : TreeOp) (h : WF f) :
    WF (applyTreeOp f op) := by
  cases op with
  | append p c d => exact WF_AppendChild f p c d h
  | insert p c adj => exact WF_InsertBefore f p c adj h
  | remove p c => exact WF_RemoveChild f p c h
  | replace p ins rep => exact WF_ReplaceChild f p ins rep h

/-- Any sequence of tree operations preserves tree consistency. -/
theorem WF_applyTreeOps (f : Forest) (ops : List TreeOp) (h : WF f) :
    WF (applyTreeOps f ops) := by
  induction ops generalizing f with
  | nil => exact h
  | cons op t ih => exact ih _ (WF_applyTreeOp f op h)

/-- In a consistent store the child counts are as documented: the
default count is the number of DOM-flagged children, the inclusive
count is the full list length, the DOM block is exactly the
DOM-flagged children in list order, and every child's parent reference
names its owner. -/
theorem WF_counts (f : Forest) (h : WF f) (i : ElemId) :
    GetNumChildrenAt f i false =
      ((childrenOf f i).filter
        (fun x => decide (domOf f x = some true))).length ∧
    GetNumChildrenAt f i true = (childrenOf f i).length ∧
    domChildren f i = (childrenOf f i).filter
      (fun x => decide (domOf f x = some true)) ∧
    (∀ x ∈ childrenOf f i, parentOf f x = some i) := by
  obtain ⟨hnd, hle, hdomb, hnondomb, -⟩ := nodeOk_of_WF f h i
  have hfil : (childrenOf f i).filter
      (fun x => decide (domOf f x = some true)) = domChildren f i := by
    conv_lhs => rw [← childrenOf_split f i]
    rw [List.filter_append]
    have h1 : (domChildren f i).filter
        (fun x => decide (domOf f x = some true)) = domChildren f i := by
      apply List.filter_eq_self.mpr
      intro x hx
      rw [(hdomb x hx).2]
      simp
    have h2 : (nonDomChildren f i).filter
        (fun x => decide (domOf f x = some true)) = [] := by
      apply List.filter_eq_nil_iff.mpr
      intro x hx
      rw [(hnondomb x hx).2]
      simp
    rw [h1, h2, List.append_nil]
  have hdlen : (domChildren f i).length =
      (childrenOf f i).length - numNonDomOf f i := by
    unfold domChildren
    rw [List.length_take]
    omega
  refine ⟨?_, ?_, hfil.symm, ?_⟩
  · rw [hfil, hdlen]
    unfold GetNumChildrenAt Element.GetNumChildren childrenOf numNonDomOf
    cases hget : getE f i <;> simp
  · unfold GetNumChildrenAt Element.GetNumChildren childrenOf
    cases hget : getE f i <;> simp
  · intro x hx
    exact WF_parent_of_mem f h x i hx

/-- C1: over every sequence of AppendChild, InsertBefore, RemoveChild
and ReplaceChild operations, the tree stays consistent: every child's
parent reference equals the element owning it in its child list, the
child list is the DOM block (in DOM order) followed by the non-DOM
block, and `GetNumChildren` with its default argument counts only the
DOM children while the non-DOM children are included only on
request. -/
theorem tree_consistency (f : Forest) (ops : List TreeOp) (h : WF f) :
    WF (applyTreeOps f ops) ∧
    (∀ i, ∀ x ∈ childrenOf (applyTreeOps f ops) i,
      parentOf (applyTreeOps f ops) x = some i) ∧
    (∀ i, GetNumChildrenAt (applyTreeOps f ops) i false =
      ((childrenOf (applyTreeOps f ops) i).filter
        (fun x => decide
          (domOf (applyTreeOps f ops) x = some true))).length) ∧
    (∀ i, GetNumChildrenAt (applyTreeOps f ops) i true =
      (childrenOf (applyTreeOps f ops) i).length) ∧
    (∀ i, domChildren (applyTreeOps f ops) i =
      (childrenOf (applyTreeOps f ops) i).filter
        (fun x => decide (domOf (applyTreeOps f ops) x = some true))) := by
  have h2 := WF_applyTreeOps f ops h
  exact ⟨h2,
    fun i => (WF_counts (applyTreeOps f ops) h2 i).2.2.2,
    fun i => (WF_counts (applyTreeOps f ops) h2 i).1,
    fun i => (WF_counts (applyTreeOps f ops) h2 i).2.1,
    fun i => (WF_counts (applyTreeOps f ops) h2 i).2.2.1⟩

/-- Witness for C1 on the concrete store and mutation sequence. -/
theorem tree_consistency_witness :
    WF (applyTreeOps sampleForest sampleOps) ∧
    (∀ i, ∀ x ∈ childrenOf (applyTreeOps sampleForest sampleOps) i,
      parentOf (applyTreeOps sampleForest sampleOps) x = some i) ∧
    (∀ i, GetNumChildrenAt (applyTreeOps sampleForest sampleOps) i false =
      ((childrenOf (applyTreeOps sampleForest sampleOps) i).filter
        (fun x => decide
          (domOf (applyTreeOps sampleForest sampleOps) x =
            some true))).length) ∧
    (∀ i, GetNumChildrenAt (applyTreeOps sampleForest sampleOps) i true =
      (childrenOf (applyTreeOps sampleForest sampleOps) i).length) ∧
    (∀ i, domChildren (applyTreeOps sampleForest sampleOps) i =
      (childrenOf (applyTreeOps sampleForest sampleOps) i).filter
        (fun x => decide
          (domOf (applyTreeOps sampleForest sampleOps) x = some true))) :=
  tree_consistency sampleForest sampleOps (by decide)

/-- C7: `ReplaceChild` appends the new element when the replaced
element is not among the children; when it is found, the new element
takes its place in the child list and the replaced element is handed
back to the caller as an owning handle — parentless but still live in
the store — rather than being destroyed. -/
theorem replace_child_fallback_and_handover (f : Forest)
    (p ins rep : ElemId) (ep eins : Element) (hp : getE f p = some ep) :
    (rep ∉ ep.children →
      ReplaceChild f p ins rep = (none, AppendChild f p ins true)) ∧
    (WF f → rep ∈ ep.children → getE f ins = some eins →
      eins.parent = none → ins ≠ p → rep ≠ p →
      (ReplaceChild f p ins rep).1 = some rep ∧
      parentOf (ReplaceChild f p ins rep).2 rep = none ∧
      (getE (ReplaceChild f p ins rep).2 rep).isSome = true ∧
      parentOf (ReplaceChild f p ins rep).2 ins = some p ∧
      childrenOf (ReplaceChild f p ins rep).2 p =
        ep.children.takeWhile (fun x => x ≠ rep) ++
          ins :: (ep.children.dropWhile (fun x => x ≠ rep)).tail) := by
  constructor
  · intro hrep
    exact ReplaceChild_eq_notfound f p ins rep ep hp hrep
  · intro h hrep hins hinspar hinsp hrepp
    rw [ReplaceChild_eq_found f p ins rep ep hp hrep]
    have hchp : childrenOf f p = ep.children := by
      unfold childrenOf
      rw [hp]
    have hparrep : parentOf f rep = some p := by
      apply WF_parent_of_mem f h rep p
      rw [hchp]
      exact hrep
    obtain ⟨erep, hcrep⟩ : ∃ e, getE f rep = some e := by
      unfold parentOf at hparrep
      cases hg2 : getE f rep with
      | none =>
        rw [hg2] at hparrep
        simp at hparrep
      | some e => exact ⟨e, rfl⟩
    have hinsrep : ins ≠ rep := by
      intro he
      subst he
      unfold parentOf at hparrep
      rw [hins] at hparrep
      simp [hinspar] at hparrep
    have hept := InsertBefore_getE f p ins rep ep eins hp hins hinspar
      hinsp hrep p
    rw [if_neg (fun he => hinsp he.symm), if_pos rfl] at hept
    have hrept := InsertBefore_getE f p ins rep ep eins hp hins hinspar
      hinsp hrep rep
    rw [if_neg (fun he => hinsrep he.symm), if_neg hrepp, hcrep] at hrept
    have hsplit2 := takeWhile_dropWhile_split ep.children rep hrep
    have hmemb : rep ∈ (ep.children.takeWhile (fun x => x ≠ rep)) ++
        ins :: (ep.children.dropWhile (fun x => x ≠ rep)) := by
      apply List.mem_append_right
      apply List.mem_cons_of_mem
      rw [hsplit2.2]
      exact List.mem_cons_self rep _
    refine ⟨?_, ?_, ?_, ?_, ?_⟩
    · rw [RemoveChild_eq_of_guard (InsertBefore f p ins rep) p rep _
        hept hmemb hrepp]
    · rw [RemoveChild_parentOf (InsertBefore f p ins rep) p rep _ erep
        hept hrept hmemb hrepp rep, if_pos rfl]
    · rw [RemoveChild_getE (InsertBefore f p ins rep) p rep _ erep
        hept hrept hmemb hrepp rep, if_pos rfl]
      rfl
    · rw [RemoveChild_parentOf (InsertBefore f p ins rep) p rep _ erep
        hept hrept hmemb hrepp ins, if_neg hinsrep]
      rw [InsertBefore_parentOf f p ins rep ep eins hp hins hinspar
        hinsp hrep ins, if_pos rfl]
    · rw [RemoveChild_childrenOf (InsertBefore f p ins rep) p rep _ erep
        hept hrept hmemb hrepp p, if_pos rfl]
      show ((ep.children.takeWhile (fun x => x ≠ rep)) ++
        ins :: (ep.children.dropWhile (fun x => x ≠ rep))).erase rep = _
      have hrepnotA : rep ∉ ep.children.takeWhile (fun x => x ≠ rep) := by
        intro hmem
        have h2 := List.mem_takeWhile_imp hmem
        simp at h2
      rw [List.erase_append_right _ hrepnotA]
      congr 1
      rw [List.erase_cons_tail (by simp [hinsrep])]
      congr 1
      conv_lhs => rw [hsplit2.2]
      exact List.erase_cons_head rep _

/-- Witness for C7 on the concrete store: replacing a missing child
falls back to append; replacing child 1 with detached element 3 slots
3 into 1's position and hands 1 back, parentless and still live. -/
theorem replace_child_fallback_and_handover_witness :
    (ReplaceChild sampleForest 0 2 3 =
      (none, AppendChild sampleForest 0 2 true)) ∧
    ((ReplaceChild sampleForest 0 3 1).1 = some 1 ∧
      parentOf (ReplaceChild sampleForest 0 3 1).2 1 = none ∧
      (getE (ReplaceChild sampleForest 0 3 1).2 1).isSome = true ∧
      parentOf (ReplaceChild sampleForest 0 3 1).2 3 = some 0 ∧
      childrenOf (ReplaceChild sampleForest 0 3 1).2 0 =
        ({ tag := "body", children := [1] } :
            Element).children.takeWhile (fun x => x ≠ 1) ++
          3 :: (({ tag := "body", children := [1] } :
            Element).children.dropWhile (fun x => x ≠ 1)).tail) :=
  ⟨(replace_child_fallback_and_handover sampleForest 0 2 3
      { tag := "body", children := [1] } { tag := "span" }
      (by decide)).1 (by decide),
   (replace_child_fallback_and_handover sampleForest 0 3 1
      { tag := "body", children := [1] } { tag := "span" }
      (by decide)).2 (by decide) (by decide) (by decide) (by decide)
      (by decide) (by decide)⟩

end RmlSpec
